import Mathlib

set_option maxHeartbeats 1000000

/-! Shallow embedding of the chunk sparse matrix implementation found in
include/deal.II/lac/chunk_sparse_matrix.templates.h.  Numeric values are
modelled by the integers (every operation of the embedded code is exact ring
arithmetic, so integers model the exact-value semantics of the template on
concrete data); machine vectors and buffers are modelled as total functions
from indices to values, with only a stated prefix meaningful. -/

/-- The externally supplied chunk sparsity structure (CSR at chunk
granularity): chunk size, logical row and column counts, compressed chunk-row
offsets and the flat array of chunk-column indices. -/
structure ChunkPattern where
  cs : Nat
  m : Nat
  n : Nat
  rowstart : List Nat
  colnums : List Nat
deriving DecidableEq

/-- rowstart accessor (sparsity_pattern.rowstart). -/
def ChunkPattern.rs (p : ChunkPattern) (i : Nat) : Nat := p.rowstart.getD i 0

/-- colnums accessor (sparsity_pattern.colnums). -/
def ChunkPattern.cn (p : ChunkPattern) (k : Nat) : Nat := p.colnums.getD k 0

/-- Number of chunk rows, sparsity_pattern.n_rows(). -/
def ChunkPattern.nChunkRows (p : ChunkPattern) : Nat := (p.m + p.cs - 1) / p.cs

/-- Number of chunk columns, sparsity_pattern.n_cols(). -/
def ChunkPattern.nChunkCols (p : ChunkPattern) : Nat := (p.n + p.cs - 1) / p.cs

/-- Number of stored chunks, sparsity_pattern.n_nonzero_elements(). -/
def ChunkPattern.nnz (p : ChunkPattern) : Nat := p.colnums.length

/-- First index k in [start, start+len) satisfying pred, if any. -/
def searchFirst (start len : Nat) (pred : Nat → Bool) : Option Nat :=
  match len with
  | 0 => none
  | Nat.succ l => if pred start then some start else searchFirst (start + 1) l pred

/-- The slot (position in the compressed adjacency) storing chunk (R, C), if
present: the first slot of chunk row R whose chunk-column index is C. -/
def ChunkPattern.findSlot (p : ChunkPattern) (R C : Nat) : Option Nat :=
  searchFirst (p.rs R) (p.rs (R + 1) - p.rs R) (fun k => p.cn k == C)

/-- The chunk row whose offset range contains slot k. -/
def ChunkPattern.rowOfSlot (p : ChunkPattern) (k : Nat) : Nat :=
  (searchFirst 0 p.nChunkRows
    (fun R => decide (p.rs R ≤ k ∧ k < p.rs (R + 1)))).getD 0

/-- Well-formedness of a compressed chunk sparsity structure: positive chunk
size and logical dimensions, offsets of the right length starting at 0 and
monotone, closing at the stored-chunk count, chunk-column indices in range and
strictly sorted within each chunk row. -/
def ChunkPattern.Valid (p : ChunkPattern) : Prop :=
  0 < p.cs ∧ 0 < p.m ∧ 0 < p.n ∧
  p.rowstart.length = p.nChunkRows + 1 ∧
  p.rs 0 = 0 ∧
  (∀ i ∈ Finset.range p.nChunkRows, p.rs i ≤ p.rs (i + 1)) ∧
  p.rs p.nChunkRows = p.nnz ∧
  (∀ k ∈ Finset.range p.nnz, p.cn k < p.nChunkCols) ∧
  (∀ R ∈ Finset.range p.nChunkRows, ∀ j ∈ Finset.range p.nnz,
    ∀ k ∈ Finset.range p.nnz,
    p.rs R ≤ j → j < k → k < p.rs (R + 1) → p.cn j < p.cn k)

instance (p : ChunkPattern) : Decidable p.Valid := by
  unfold ChunkPattern.Valid; infer_instance

/-- The padding invariant: every value-buffer position of a stored chunk whose
logical row or column index falls outside the logical bounds holds zero. -/
def PaddingZero (p : ChunkPattern) (values : Nat → ℤ) : Prop :=
  ∀ k ∈ Finset.range p.nnz, ∀ r ∈ Finset.range p.cs, ∀ c ∈ Finset.range p.cs,
    (p.m ≤ p.rowOfSlot k * p.cs + r ∨ p.n ≤ p.cn k * p.cs + c) →
    values (k * (p.cs * p.cs) + r * p.cs + c) = 0

instance (p : ChunkPattern) (v : Nat → ℤ) : Decidable (PaddingZero p v) := by
  unfold PaddingZero; infer_instance

/-- The logical matrix entry at (i, j): the stored value when the chunk
(i / cs, j / cs) is present in the adjacency, zero otherwise.  Each stored
chunk occupies a contiguous run of cs * cs values in row-major order. -/
def entry (p : ChunkPattern) (values : Nat → ℤ) (i j : Nat) : ℤ :=
  match p.findSlot (i / p.cs) (j / p.cs) with
  | some k => values (k * (p.cs * p.cs) + (i % p.cs) * p.cs + (j % p.cs))
  | none => 0

/-- Kernel chunk_vmult_add: dst[i] += sum over j of matrix[i*cs+j] * src[j]
for i < cs, all three arguments being iterator views. -/
def chunk_vmult_add (chunk_size : Nat) (matrix src dst : Nat → ℤ) : Nat → ℤ :=
  fun i =>
    if i < chunk_size then
      dst i + ∑ j ∈ Finset.range chunk_size, matrix (i * chunk_size + j) * src j
    else dst i

/-- Kernel chunk_vmult_subtract: like chunk_vmult_add but subtracting; used by
residual. -/
def chunk_vmult_subtract (chunk_size : Nat) (matrix src dst : Nat → ℤ) : Nat → ℤ :=
  fun i =>
    if i < chunk_size then
      dst i - ∑ j ∈ Finset.range chunk_size, matrix (i * chunk_size + j) * src j
    else dst i

/-- Apply an update written against an iterator view at offset doff back to
the underlying vector, mirroring pointer arithmetic on dst. -/
def applyAtOffset (doff : Nat) (f : (Nat → ℤ) → Nat → ℤ) (v : Nat → ℤ) : Nat → ℤ :=
  fun x => if doff ≤ x then f (fun t => v (doff + t)) (x - doff) else v x

/-- State of the row-range traversal: the column-index cursor (an index into
colnums), the value cursor (an index into the value buffer), and the
destination vector. -/
@[ext]
structure TravState where
  colnumPtr : Nat
  valPtr : Nat
  dst : Nat → ℤ

/-- One iteration of the regular-row loop of vmult_add_on_subrange: either the
full chunk_vmult_add kernel, or, at the chunk column holding column padding,
an element-wise double loop bounded by n mod cs in the column direction.  The
cursors then advance by one chunk. -/
def processChunkRegular (p : ChunkPattern) (values src : Nat → ℤ) (doff : Nat)
    (s : TravState) : TravState :=
  let cs := p.cs
  let col := p.cn s.colnumPtr
  let dst' : Nat → ℤ :=
    if col ≠ p.n / cs then
      applyAtOffset doff
        (chunk_vmult_add cs (fun t => values (s.valPtr + t))
          (fun t => src (col * cs + t))) s.dst
    else
      fun x =>
        if doff ≤ x ∧ x - doff < cs then
          s.dst x + ∑ c ∈ Finset.range (p.n % cs),
            values (s.valPtr + (x - doff) * cs + c) * src (col * cs + c)
        else s.dst x
  ⟨s.colnumPtr + 1, s.valPtr + cs * cs, dst'⟩

/-- One iteration of the final-chunk-row loop of vmult_add_on_subrange: the
row extent is bounded by m mod cs; the column extent is the full chunk size
except at the chunk column holding column padding, where it is n mod cs. -/
def processChunkLast (p : ChunkPattern) (values src : Nat → ℤ) (doff : Nat)
    (s : TravState) : TravState :=
  let cs := p.cs
  let col := p.cn s.colnumPtr
  let dst' : Nat → ℤ :=
    if col ≠ p.n / cs then
      fun x =>
        if doff ≤ x ∧ x - doff < p.m % cs then
          s.dst x + ∑ c ∈ Finset.range cs,
            values (s.valPtr + (x - doff) * cs + c) * src (col * cs + c)
        else s.dst x
    else
      fun x =>
        if doff ≤ x ∧ x - doff < p.m % cs then
          s.dst x + ∑ c ∈ Finset.range (p.n % cs),
            values (s.valPtr + (x - doff) * cs + c) * src (col * cs + c)
        else s.dst x
  ⟨s.colnumPtr + 1, s.valPtr + cs * cs, dst'⟩

/-- Run count iterations of a per-chunk step; this models a while loop over
val_ptr whose iteration count is determined by the row's offset range. -/
def runRow (step : TravState → TravState) : Nat → TravState → TravState
  | 0, s => s
  | Nat.succ t, s => runRow step t (step s)

/-- vmult_add_on_subrange: walk the stored chunks of chunk rows
[beginRow, endRow), adding chunk-by-chunk products into dst.  Regular chunk
rows run up to last_regular_row (min of m / cs and endRow when the last chunk
row has padding); the single possibly-partial final chunk row is handled
separately when endRow = m / cs + 1.  Cursors start at rowstart[beginRow] and
per-row iteration counts are determined by the next row's starting offset,
mirroring the pointer walk. -/
def vmult_add_on_subrange (p : ChunkPattern) (beginRow endRow : Nat)
    (values src dst0 : Nat → ℤ) : TravState :=
  let cs := p.cs
  let lastRegularRow :=
    if 0 < p.m % cs then min (p.m / cs) endRow else endRow
  let s0 : TravState := ⟨p.rs beginRow, p.rs beginRow * (cs * cs), dst0⟩
  let s1 := (List.range' beginRow (lastRegularRow - beginRow)).foldl
    (fun s r =>
      runRow (processChunkRegular p values src (r * cs))
        (p.rs (r + 1) - s.colnumPtr) s) s0
  if 0 < p.m % cs ∧ endRow = p.m / cs + 1 then
    runRow (processChunkLast p values src (lastRegularRow * cs))
      (p.rs (lastRegularRow + 1) - s1.colnumPtr) s1
  else s1

/-- One iteration of the regular-row loop of residual: like the vmult chunk
step but subtracting, with the padding-column test written as in the source
(no column padding, or chunk column differing from n_cols() - 1). -/
def processChunkResRegular (p : ChunkPattern) (values u : Nat → ℤ) (doff : Nat)
    (s : TravState) : TravState :=
  let cs := p.cs
  let col := p.cn s.colnumPtr
  let dst' : Nat → ℤ :=
    if p.n % cs = 0 ∨ col ≠ p.nChunkCols - 1 then
      applyAtOffset doff
        (chunk_vmult_subtract cs (fun t => values (s.valPtr + t))
          (fun t => u (col * cs + t))) s.dst
    else
      fun x =>
        if doff ≤ x ∧ x - doff < cs then
          s.dst x - ∑ c ∈ Finset.range (p.n % cs),
            values (s.valPtr + (x - doff) * cs + c) * u (col * cs + c)
        else s.dst x
  ⟨s.colnumPtr + 1, s.valPtr + cs * cs, dst'⟩

/-- One iteration of the final-chunk-row loop of residual. -/
def processChunkResLast (p : ChunkPattern) (values u : Nat → ℤ) (doff : Nat)
    (s : TravState) : TravState :=
  let cs := p.cs
  let col := p.cn s.colnumPtr
  let dst' : Nat → ℤ :=
    if p.n % cs = 0 ∨ col ≠ p.nChunkCols - 1 then
      fun x =>
        if doff ≤ x ∧ x - doff < p.m % cs then
          s.dst x - ∑ c ∈ Finset.range cs,
            values (s.valPtr + (x - doff) * cs + c) * u (col * cs + c)
        else s.dst x
    else
      fun x =>
        if doff ≤ x ∧ x - doff < p.m % cs then
          s.dst x - ∑ c ∈ Finset.range (p.n % cs),
            values (s.valPtr + (x - doff) * cs + c) * u (col * cs + c)
        else s.dst x
  ⟨s.colnumPtr + 1, s.valPtr + cs * cs, dst'⟩

/-- The traversal part of residual: starting from dst = b, subtract A*u chunk
by chunk over all chunk rows, the final possibly-partial chunk row handled
separately when the rows have padding. -/
def residualTraverse (p : ChunkPattern) (values u b : Nat → ℤ) : TravState :=
  let cs := p.cs
  let nChunkRowsSP := p.nChunkRows
  let nRegular := if 0 < p.m % cs then nChunkRowsSP - 1 else nChunkRowsSP
  let s0 : TravState := ⟨0, 0, b⟩
  let s1 := (List.range' 0 nRegular).foldl
    (fun s r =>
      runRow (processChunkResRegular p values u (r * cs))
        (p.rs (r + 1) - s.colnumPtr) s) s0
  if 0 < p.m % cs then
    runRow (processChunkResLast p values u (nRegular * cs))
      (p.rs (nRegular + 1) - s1.colnumPtr) s1
  else s1

/-- Modelled from the spec: the sparsity structure's emptiness predicate
(ChunkSparsityPattern::empty() lives outside src/); a pattern is empty when it
has no rows and no columns. -/
def ChunkPattern.isEmpty (p : ChunkPattern) : Bool := p.m == 0 && p.n == 0

/-- The matrix: a possibly-bound sparsity structure (the Nat tag is the
pattern object's identity, so equality of the pair models pointer equality,
following the spec's design note on identity comparison), the flat value
buffer, whether a buffer is allocated (val != nullptr), and the sticky
capacity max_len. -/
structure ChunkSparseMatrix where
  cols : Option (Nat × ChunkPattern)
  val : Nat → ℤ
  alloc : Bool
  maxLen : Nat

/-- The default-constructed matrix: no bound pattern, no buffer, capacity 0. -/
def ChunkSparseMatrix.initial : ChunkSparseMatrix :=
  ⟨none, fun _ => 0, false, 0⟩

/-- reinit(sparsity): record the pattern; an empty pattern releases the buffer
and sets capacity 0; otherwise a new zero-initialized buffer of the required
length N = nnz * cs * cs is allocated only when N exceeds max_len (or max_len
is 0), and then operator=(0) zeroes the first matrix_size = N elements of the
buffer.  The Bool records whether a new buffer was allocated. -/
def ChunkSparseMatrix.reinit (A : ChunkSparseMatrix) (pat : Nat × ChunkPattern) :
    ChunkSparseMatrix × Bool :=
  if pat.2.isEmpty then
    ({ cols := some pat, val := fun _ => 0, alloc := false, maxLen := 0 }, false)
  else
    let N := pat.2.nnz * (pat.2.cs * pat.2.cs)
    let grow : Bool := decide (A.maxLen < N) || decide (A.maxLen = 0)
    let val1 : Nat → ℤ := if grow then fun _ => 0 else A.val
    let len1 := if grow then N else A.maxLen
    ({ cols := some pat,
       val := fun t => if t < N then 0 else val1 t,
       alloc := true, maxLen := len1 }, grow)

/-- copy_from(matrix): requires a bound pattern, an allocated buffer and the
identical pattern object on both sides; copies the first nnz * cs * cs
elements of the value buffer, padding included, verbatim. -/
def ChunkSparseMatrix.copy_from (A B : ChunkSparseMatrix) :
    Option ChunkSparseMatrix :=
  match A.cols with
  | none => none
  | some pat =>
    if A.alloc = false then none
    else if B.cols = some pat then
      some { A with val := fun t =>
        if t < pat.2.nnz * (pat.2.cs * pat.2.cs) then B.val t else A.val t }
    else none

/-- add(factor, matrix): requires a bound pattern, an allocated buffer and the
identical pattern object on both sides; adds factor * other value into each of
the first nnz * cs * cs buffer elements, padding included. -/
def ChunkSparseMatrix.add (A : ChunkSparseMatrix) (factor : ℤ)
    (B : ChunkSparseMatrix) : Option ChunkSparseMatrix :=
  match A.cols with
  | none => none
  | some pat =>
    if A.alloc = false then none
    else if B.cols = some pat then
      let v : Nat → ℤ := fun t =>
        if t < pat.2.nnz * (pat.2.cs * pat.2.cs) then A.val t + factor * B.val t
        else A.val t
      some { A with val := v }
    else none

/-- operator=(const ChunkSparseMatrix &): permitted only when the right-hand
side is a completely empty matrix (no pattern, no buffer, capacity 0);
otherwise the contract check fails. -/
def ChunkSparseMatrix.assign (A B : ChunkSparseMatrix) :
    Option ChunkSparseMatrix :=
  if B.cols = none ∧ B.alloc = false ∧ B.maxLen = 0 then some A else none

/-- Modelled from the spec: set_entry(row, col, value) — the mutation entry
point accepts logical (row, col) pairs within bounds only and fails when the
position is not represented in the bound sparsity structure
(ChunkSparseMatrix::set lives outside src/). -/
def ChunkSparseMatrix.set_entry (A : ChunkSparseMatrix) (i j : Nat) (x : ℤ) :
    Option ChunkSparseMatrix :=
  match A.cols with
  | none => none
  | some pat =>
    if A.alloc = false then none
    else if i < pat.2.m ∧ j < pat.2.n then
      match pat.2.findSlot (i / pat.2.cs) (j / pat.2.cs) with
      | some k =>
        let pos := k * (pat.2.cs * pat.2.cs) + (i % pat.2.cs) * pat.2.cs + (j % pat.2.cs)
        some { A with val := Function.update A.val pos x }
      | none => none
    else none

/-- Modelled from the spec: add_entry(row, col, value), the accumulating
mutation entry point (ChunkSparseMatrix::add(i,j,value) lives outside src/). -/
def ChunkSparseMatrix.add_entry (A : ChunkSparseMatrix) (i j : Nat) (x : ℤ) :
    Option ChunkSparseMatrix :=
  match A.cols with
  | none => none
  | some pat =>
    if A.alloc = false then none
    else if i < pat.2.m ∧ j < pat.2.n then
      match pat.2.findSlot (i / pat.2.cs) (j / pat.2.cs) with
      | some k =>
        let pos := k * (pat.2.cs * pat.2.cs) + (i % pat.2.cs) * pat.2.cs + (j % pat.2.cs)
        some { A with val := Function.update A.val pos (A.val pos + x) }
      | none => none
    else none

/-- vmult_add(dst, src): contract checks, then the row-range traversal over
all chunk rows (the parallel partitioner dispatches disjoint row subranges of
the same traversal; the serial full-range walk models the result). -/
def ChunkSparseMatrix.vmult_add (A : ChunkSparseMatrix) (dst src : Nat → ℤ) :
    Option (Nat → ℤ) :=
  match A.cols with
  | none => none
  | some pat =>
    if A.alloc = false then none
    else some (vmult_add_on_subrange pat.2 0 pat.2.nChunkRows A.val src dst).dst

/-- vmult(dst, src): contract checks, then dst is zeroed and vmult_add
accumulates into it. -/
def ChunkSparseMatrix.vmult (A : ChunkSparseMatrix) (src : Nat → ℤ) :
    Option (Nat → ℤ) :=
  match A.cols with
  | none => none
  | some _ =>
    if A.alloc = false then none
    else A.vmult_add (fun _ => 0) src

/-- Modelled from the spec: the Euclidean norm of a length-len vector, kept as
its square so that the value stays rational (Vector::l2_norm lives outside
src/). -/
def l2NormSq (len : Nat) (v : Nat → ℤ) : ℤ :=
  ∑ i ∈ Finset.range len, v i * v i

/-- residual(dst, u, b): contract checks, dst := b, then the subtracting
traversal of A*u, returning the new dst together with the square of its
Euclidean norm (the source returns dst.l2_norm(), the square root of this
value). -/
def ChunkSparseMatrix.residual (A : ChunkSparseMatrix) (u b : Nat → ℤ) :
    Option ((Nat → ℤ) × ℤ) :=
  match A.cols with
  | none => none
  | some pat =>
    if A.alloc = false then none
    else
      let d := (residualTraverse pat.2 A.val u b).dst
      some (d, l2NormSq pat.2.m d)

/-- frobenius_norm accumulates abs_square over the entire allocated extent
[0, max_len); the source returns the square root of this sum, so we model the
squared norm.  Note: uniquely among the norms, the source performs no
precondition check here at all. -/
def ChunkSparseMatrix.frobenius_norm_sqr (A : ChunkSparseMatrix) : ℤ :=
  ∑ t ∈ Finset.range A.maxLen, A.val t * A.val t

/-- The per-logical-column accumulation of absolute values used by l1_norm,
written over the grouped chunk-row walk of the source. -/
def columnSums (p : ChunkPattern) (values : Nat → ℤ) (t : Nat) : ℤ :=
  ∑ row ∈ Finset.range p.nChunkRows,
    ∑ j ∈ Finset.Ico (p.rs row) (p.rs (row + 1)),
      ∑ r ∈ Finset.range p.cs,
        ∑ s ∈ Finset.range p.cs,
          if p.cn j * p.cs + s = t then
            |values (j * (p.cs * p.cs) + r * p.cs + s)| else 0

/-- l1_norm: contract checks (bound pattern, allocated buffer), then the
maximum over the padded column extent of the per-column absolute sums. -/
def ChunkSparseMatrix.l1_norm (A : ChunkSparseMatrix) : Option ℤ :=
  match A.cols with
  | none => none
  | some pat =>
    if A.alloc = false then none
    else some (((List.range (pat.2.nChunkCols * pat.2.cs)).map
      (columnSums pat.2 A.val)).foldr max 0)

/-- An item of the serialized stream: the bracket characters, the formatted
capacity integer, or one raw buffer element. -/
inductive SerialItem where
  | lbra : SerialItem
  | rbra : SerialItem
  | intItem : Nat → SerialItem
  | valItem : ℤ → SerialItem
deriving DecidableEq

/-- block_write: the stream '[' capacity '][' followed by the max_len raw
buffer elements and a closing ']'. -/
def ChunkSparseMatrix.block_write (A : ChunkSparseMatrix) : List SerialItem :=
  [SerialItem.lbra, SerialItem.intItem A.maxLen, SerialItem.rbra, SerialItem.lbra] ++
    (List.range A.maxLen).map (fun t => SerialItem.valItem (A.val t)) ++
    [SerialItem.rbra]

/-- Read count raw buffer elements from the stream. -/
def readVals : Nat → List SerialItem → Option (List ℤ × List SerialItem)
  | 0, s => some ([], s)
  | Nat.succ k, SerialItem.valItem q :: s =>
    match readVals k s with
    | some (vs, s1) => some (q :: vs, s1)
    | none => none
  | Nat.succ _, _ => none

/-- block_read: parse '[' capacity '][', reallocate a fresh buffer of that
capacity, read that many raw elements, and expect the closing ']'; any
malformed stream is an I/O failure. -/
def ChunkSparseMatrix.block_read (A : ChunkSparseMatrix) (s : List SerialItem) :
    Option (ChunkSparseMatrix × List SerialItem) :=
  match s with
  | SerialItem.lbra :: SerialItem.intItem len :: SerialItem.rbra ::
      SerialItem.lbra :: rest =>
    match readVals len rest with
    | some (vs, SerialItem.rbra :: rest2) =>
      let v : Nat → ℤ := fun t => vs.getD t 0
      some ({ A with maxLen := len, alloc := true, val := v }, rest2)
    | _ => none
  | _ => none

/-- Build a vector (total function) from a list, zero beyond its length. -/
def vecOf (l : List ℤ) : Nat → ℤ := fun i => l.getD i 0

/-- The concrete scenario pattern: chunk_size 2, logical dims 3 x 3, chunks
stored at chunk positions (0,0) and (1,1) only. -/
def pat33 : ChunkPattern := ⟨2, 3, 3, [0, 1, 2], [0, 1]⟩

/-- The concrete scenario matrix: entries (0,0)=1, (1,1)=1, (2,2)=1, all
padding positions zero; buffer [1,0,0,1, 1,0,0,0]. -/
def mat33 : ChunkSparseMatrix :=
  ⟨some (0, pat33), vecOf [1, 0, 0, 1, 1, 0, 0, 0], true, 8⟩

/-- The concrete scenario source vector [1, 2, 3]. -/
def src123 : Nat → ℤ := vecOf [1, 2, 3]

/-- A full 2 x 2 pattern with chunk size 1 (required length 4). -/
def patBig : ChunkPattern := ⟨1, 2, 2, [0, 2, 4], [0, 1, 0, 1]⟩

/-- A 1 x 1 pattern with chunk size 1 (required length 1). -/
def patSmall : ChunkPattern := ⟨1, 1, 1, [0, 1], [0]⟩

/-- The contribution of the stored chunk at slot k to destination sub-row r of
its chunk row during the forward multiply traversal: the full chunk product,
or the column-bounded partial product at the chunk column with padding. -/
def contrib (p : ChunkPattern) (values src : Nat → ℤ) (k r : Nat) : ℤ :=
  if p.cn k ≠ p.n / p.cs then
    ∑ c ∈ Finset.range p.cs,
      values (k * (p.cs * p.cs) + r * p.cs + c) * src (p.cn k * p.cs + c)
  else
    ∑ c ∈ Finset.range (p.n % p.cs),
      values (k * (p.cs * p.cs) + r * p.cs + c) * src (p.cn k * p.cs + c)

/-- The contribution of the stored chunk at slot k during the residual
traversal, whose padding-column test is phrased via n_cols() - 1. -/
def contribRes (p : ChunkPattern) (values u : Nat → ℤ) (k r : Nat) : ℤ :=
  if p.n % p.cs = 0 ∨ p.cn k ≠ p.nChunkCols - 1 then
    ∑ c ∈ Finset.range p.cs,
      values (k * (p.cs * p.cs) + r * p.cs + c) * u (p.cn k * p.cs + c)
  else
    ∑ c ∈ Finset.range (p.n % p.cs),
      values (k * (p.cs * p.cs) + r * p.cs + c) * u (p.cn k * p.cs + c)

/-- A per-chunk step of the traversal is shaped: it advances the column
cursor by one and the value cursor by one chunk area, and, when the value
cursor is aligned to the column cursor, it adds g(slot, subrow) on the
destination segment [doff, doff + rext) and changes nothing else. -/
def StepShaped (cs doff rext : Nat) (g : Nat → Nat → ℤ)
    (step : TravState → TravState) : Prop :=
  ∀ s : TravState, (step s).colnumPtr = s.colnumPtr + 1 ∧
    (step s).valPtr = s.valPtr + cs * cs ∧
    (s.valPtr = s.colnumPtr * (cs * cs) →
      ∀ x, (step s).dst x =
        if doff ≤ x ∧ x - doff < rext then s.dst x + g s.colnumPtr (x - doff)
        else s.dst x)

/-- The set of logical positions represented in the bound sparsity structure:
in-bounds pairs whose chunk is stored. -/
def storedEntries (p : ChunkPattern) : Finset (Nat × Nat) :=
  ((Finset.range p.m) ×ˢ (Finset.range p.n)).filter
    (fun ij => (p.findSlot (ij.1 / p.cs) (ij.2 / p.cs)).isSome = true)

/-- The slot-value view of one logical entry inside chunk row R, used to
re-index row sums in the correctness proofs: the stored value of chunk (R, C)
at in-chunk position (r, c) when that chunk is stored, zero otherwise. -/
def entryAt (p : ChunkPattern) (values : Nat → ℤ) (R r C c : Nat) : ℤ :=
  match p.findSlot R C with
  | some k => values (k * (p.cs * p.cs) + r * p.cs + c)
  | none => 0

/-! Helper lemmas on the search primitive and on valid patterns. -/

theorem searchFirst_some {start len : Nat} {pred : Nat → Bool} {k : Nat}
    (h : searchFirst start len pred = some k) :
    start ≤ k ∧ k < start + len ∧ pred k = true := by
  induction len generalizing start with
  | zero => simp [searchFirst] at h
  | succ l ih =>
    rw [searchFirst] at h
    by_cases hp : pred start = true
    · rw [if_pos hp] at h
      cases h
      exact ⟨Nat.le_refl _, by omega, hp⟩
    · rw [if_neg hp] at h
      obtain ⟨h1, h2, h3⟩ := ih h
      exact ⟨by omega, by omega, h3⟩

theorem searchFirst_first {start len k : Nat} {pred : Nat → Bool}
    (h1 : start ≤ k) (h2 : k < start + len) (h3 : pred k = true)
    (h4 : ∀ j, start ≤ j → j < k → pred j = false) :
    searchFirst start len pred = some k := by
  induction len generalizing start with
  | zero => omega
  | succ l ih =>
    rw [searchFirst]
    rcases Nat.eq_or_lt_of_le h1 with rfl | hlt
    · rw [if_pos h3]
    · have hps : pred start = false := h4 start (Nat.le_refl _) hlt
      rw [if_neg (by simp [hps])]
      exact ih (by omega) (by omega) (fun j hj1 hj2 => h4 j (by omega) hj2)

theorem ChunkPattern.Valid.cs_pos {p : ChunkPattern} (h : p.Valid) : 0 < p.cs := h.1

theorem ChunkPattern.Valid.m_pos {p : ChunkPattern} (h : p.Valid) : 0 < p.m := h.2.1

theorem ChunkPattern.Valid.n_pos {p : ChunkPattern} (h : p.Valid) : 0 < p.n := h.2.2.1

theorem ChunkPattern.Valid.rs_zero {p : ChunkPattern} (h : p.Valid) : p.rs 0 = 0 :=
  h.2.2.2.2.1

theorem ChunkPattern.Valid.rs_succ_le {p : ChunkPattern} (h : p.Valid) {i : Nat}
    (hi : i < p.nChunkRows) : p.rs i ≤ p.rs (i + 1) :=
  h.2.2.2.2.2.1 i (Finset.mem_range.mpr hi)

theorem ChunkPattern.Valid.rs_top {p : ChunkPattern} (h : p.Valid) :
    p.rs p.nChunkRows = p.nnz := h.2.2.2.2.2.2.1

theorem ChunkPattern.Valid.cn_lt {p : ChunkPattern} (h : p.Valid) {k : Nat}
    (hk : k < p.nnz) : p.cn k < p.nChunkCols :=
  h.2.2.2.2.2.2.2.1 k (Finset.mem_range.mpr hk)

theorem ChunkPattern.Valid.sorted {p : ChunkPattern} (h : p.Valid) {R j k : Nat}
    (hR : R < p.nChunkRows) (hj : j < p.nnz) (hk : k < p.nnz)
    (h1 : p.rs R ≤ j) (h2 : j < k) (h3 : k < p.rs (R + 1)) : p.cn j < p.cn k :=
  h.2.2.2.2.2.2.2.2 R (Finset.mem_range.mpr hR) j (Finset.mem_range.mpr hj)
    k (Finset.mem_range.mpr hk) h1 h2 h3

theorem rs_mono {p : ChunkPattern} (h : p.Valid) {a b : Nat} (hab : a ≤ b)
    (hb : b ≤ p.nChunkRows) : p.rs a ≤ p.rs b := by
  induction b with
  | zero =>
    have : a = 0 := by omega
    subst this
    exact Nat.le_refl _
  | succ b ih =>
    rcases Nat.eq_or_lt_of_le hab with rfl | hlt
    · exact Nat.le_refl _
    · exact Nat.le_trans (ih (by omega) (by omega)) (h.rs_succ_le (by omega))

theorem rs_le_nnz {p : ChunkPattern} (h : p.Valid) {a : Nat}
    (ha : a ≤ p.nChunkRows) : p.rs a ≤ p.nnz := by
  have := rs_mono h ha (Nat.le_refl _)
  rw [h.rs_top] at this
  exact this

theorem slot_lt_nnz {p : ChunkPattern} (h : p.Valid) {R k : Nat}
    (hR : R < p.nChunkRows) (hk : k < p.rs (R + 1)) : k < p.nnz :=
  Nat.lt_of_lt_of_le hk (rs_le_nnz h hR)

theorem findSlot_sound {p : ChunkPattern} (h : p.Valid) {R C k : Nat}
    (hR : R < p.nChunkRows) (hf : p.findSlot R C = some k) :
    p.rs R ≤ k ∧ k < p.rs (R + 1) ∧ p.cn k = C := by
  obtain ⟨h1, h2, h3⟩ := searchFirst_some hf
  have hle := h.rs_succ_le hR
  simp only [beq_iff_eq] at h3
  exact ⟨h1, by omega, h3⟩

theorem findSlot_of_slot {p : ChunkPattern} (h : p.Valid) {R k : Nat}
    (hR : R < p.nChunkRows) (h1 : p.rs R ≤ k) (h2 : k < p.rs (R + 1)) :
    p.findSlot R (p.cn k) = some k := by
  have hle := h.rs_succ_le hR
  apply searchFirst_first h1 (by omega) (by simp)
  intro j hj1 hj2
  have hcn : p.cn j < p.cn k :=
    h.sorted hR (slot_lt_nnz h hR (by omega)) (slot_lt_nnz h hR h2) hj1 hj2 h2
  simp [Nat.ne_of_lt hcn]

theorem findSlot_none {p : ChunkPattern} (h : p.Valid) {R C : Nat}
    (hR : R < p.nChunkRows) (hf : p.findSlot R C = none) :
    ∀ k, p.rs R ≤ k → k < p.rs (R + 1) → p.cn k ≠ C := by
  intro k h1 h2 heq
  have := findSlot_of_slot h hR h1 h2
  rw [heq, hf] at this
  cases this

theorem rowOfSlot_eq {p : ChunkPattern} (h : p.Valid) {R k : Nat}
    (hR : R < p.nChunkRows) (h1 : p.rs R ≤ k) (h2 : k < p.rs (R + 1)) :
    p.rowOfSlot k = R := by
  unfold ChunkPattern.rowOfSlot
  rw [searchFirst_first (Nat.zero_le R) (by omega)
    (by simp only [decide_eq_true_eq]; exact ⟨h1, h2⟩) ?_]
  · rfl
  · intro j hj0 hjR
    have hle : p.rs (j + 1) ≤ p.rs R := rs_mono h (by omega) (by omega)
    simp only [decide_eq_false_iff_not]
    omega

theorem nCR_eq {p : ChunkPattern} (hcs : 0 < p.cs) (hm : 0 < p.m) :
    p.nChunkRows = (p.m - 1) / p.cs + 1 := by
  unfold ChunkPattern.nChunkRows
  have h1 : p.m + p.cs - 1 = (p.m - 1) + p.cs := by omega
  rw [h1, Nat.add_div_right _ hcs]

theorem nCC_eq {p : ChunkPattern} (hcs : 0 < p.cs) (hn : 0 < p.n) :
    p.nChunkCols = (p.n - 1) / p.cs + 1 := by
  unfold ChunkPattern.nChunkCols
  have h1 : p.n + p.cs - 1 = (p.n - 1) + p.cs := by omega
  rw [h1, Nat.add_div_right _ hcs]

theorem nCR_of_mod_pos {p : ChunkPattern} (hcs : 0 < p.cs)
    (hmod : 0 < p.m % p.cs) : p.nChunkRows = p.m / p.cs + 1 := by
  have hm : 0 < p.m := by
    rcases Nat.eq_zero_or_pos p.m with h | h
    · rw [h] at hmod; simp at hmod
    · exact h
  rw [nCR_eq hcs hm]
  have hdm := Nat.div_add_mod p.m p.cs
  have hlt := Nat.mod_lt p.m hcs
  have hdiv : (p.m - 1) / p.cs = p.m / p.cs := by
    apply Nat.div_eq_of_lt_le
    · have e1 : p.m / p.cs * p.cs = p.cs * (p.m / p.cs) := Nat.mul_comm _ _
      omega
    · have e2 : (p.m / p.cs + 1) * p.cs = p.cs * (p.m / p.cs) + p.cs := by ring
      omega
  omega

theorem nCR_of_mod_zero {p : ChunkPattern} (hcs : 0 < p.cs) (hm : 0 < p.m)
    (hmod : p.m % p.cs = 0) : p.nChunkRows = p.m / p.cs := by
  rw [nCR_eq hcs hm]
  have hdm := Nat.div_add_mod p.m p.cs
  have hq : 0 < p.m / p.cs := by
    rcases Nat.eq_zero_or_pos (p.m / p.cs) with h | h
    · rw [h] at hdm; omega
    · exact h
  have hdiv : (p.m - 1) / p.cs = p.m / p.cs - 1 := by
    apply Nat.div_eq_of_lt_le
    · have e1 : (p.m / p.cs - 1) * p.cs = p.m / p.cs * p.cs - p.cs := by
        rw [Nat.sub_mul, Nat.one_mul]
      have e2 : p.m / p.cs * p.cs = p.cs * (p.m / p.cs) := Nat.mul_comm _ _
      omega
    · have e3 : (p.m / p.cs - 1 + 1) * p.cs = p.m / p.cs * p.cs := by
        rw [Nat.sub_add_cancel hq]
      have e2 : p.m / p.cs * p.cs = p.cs * (p.m / p.cs) := Nat.mul_comm _ _
      omega
  omega

theorem div_lt_nCR {p : ChunkPattern} (hcs : 0 < p.cs) {i : Nat} (hi : i < p.m) :
    i / p.cs < p.nChunkRows := by
  rw [nCR_eq hcs (by omega)]
  have := Nat.div_le_div_right (c := p.cs) (show i ≤ p.m - 1 by omega)
  omega

theorem nCC_mul_ge {p : ChunkPattern} (hcs : 0 < p.cs) (hn : 0 < p.n) :
    p.n ≤ p.nChunkCols * p.cs := by
  rw [nCC_eq hcs hn]
  have hdm := Nat.div_add_mod (p.n - 1) p.cs
  have hlt := Nat.mod_lt (p.n - 1) hcs
  have e1 : ((p.n - 1) / p.cs + 1) * p.cs = (p.n - 1) / p.cs * p.cs + p.cs := by
    ring
  have e2 : (p.n - 1) / p.cs * p.cs = p.cs * ((p.n - 1) / p.cs) := Nat.mul_comm _ _
  omega

theorem nCR_mul_ge {p : ChunkPattern} (hcs : 0 < p.cs) (hm : 0 < p.m) :
    p.m ≤ p.nChunkRows * p.cs := by
  rw [nCR_eq hcs hm]
  have hdm := Nat.div_add_mod (p.m - 1) p.cs
  have hlt := Nat.mod_lt (p.m - 1) hcs
  have e1 : ((p.m - 1) / p.cs + 1) * p.cs = (p.m - 1) / p.cs * p.cs + p.cs := by
    ring
  have e2 : (p.m - 1) / p.cs * p.cs = p.cs * ((p.m - 1) / p.cs) := Nat.mul_comm _ _
  omega

theorem sub_block_lt {cs r c : Nat} (hr : r < cs) (hc : c < cs) :
    r * cs + c < cs * cs := by
  have h3 : (r + 1) * cs ≤ cs * cs := mul_le_mul_right' hr cs
  have h4 : (r + 1) * cs = r * cs + cs := by ring
  omega

theorem encode_lt {cs k r c N : Nat} (hk : k < N) (hr : r < cs) (hc : c < cs) :
    k * (cs * cs) + r * cs + c < N * (cs * cs) := by
  have h1 := sub_block_lt hr hc
  have h5 : (k + 1) * (cs * cs) ≤ N * (cs * cs) := mul_le_mul_right' hk (cs * cs)
  have h6 : (k + 1) * (cs * cs) = k * (cs * cs) + cs * cs := by ring
  omega

theorem encode_div {cs k r c : Nat} (hcs : 0 < cs) (hr : r < cs) (hc : c < cs) :
    (k * (cs * cs) + r * cs + c) / (cs * cs) = k := by
  have h1 : k * (cs * cs) + r * cs + c = cs * cs * k + (r * cs + c) := by ring
  rw [h1, Nat.mul_add_div (Nat.mul_pos hcs hcs),
    Nat.div_eq_of_lt (sub_block_lt hr hc), Nat.add_zero]

theorem encode_mod {cs k r c : Nat} (hcs : 0 < cs) (hr : r < cs) (hc : c < cs) :
    (k * (cs * cs) + r * cs + c) % (cs * cs) = r * cs + c := by
  have h1 : k * (cs * cs) + r * cs + c = cs * cs * k + (r * cs + c) := by ring
  rw [h1, Nat.mul_add_mod, Nat.mod_eq_of_lt (sub_block_lt hr hc)]

theorem inner_div {cs r c : Nat} (hcs : 0 < cs) (hc : c < cs) :
    (r * cs + c) / cs = r := by
  have h1 : r * cs + c = cs * r + c := by ring
  rw [h1, Nat.mul_add_div hcs, Nat.div_eq_of_lt hc, Nat.add_zero]

theorem inner_mod {cs r c : Nat} (hcs : 0 < cs) (hc : c < cs) :
    (r * cs + c) % cs = c := by
  have h1 : r * cs + c = cs * r + c := by ring
  rw [h1, Nat.mul_add_mod, Nat.mod_eq_of_lt hc]

theorem encode_inj {cs k r c k2 r2 c2 : Nat} (hcs : 0 < cs)
    (hr : r < cs) (hc : c < cs) (hr2 : r2 < cs) (hc2 : c2 < cs)
    (h : k * (cs * cs) + r * cs + c = k2 * (cs * cs) + r2 * cs + c2) :
    k = k2 ∧ r = r2 ∧ c = c2 := by
  have e1 : k = k2 := by
    have := congrArg (fun t => t / (cs * cs)) h
    simpa [encode_div hcs hr hc, encode_div hcs hr2 hc2] using this
  have e2 := congrArg (fun t => t % (cs * cs)) h
  simp only [encode_mod hcs hr hc, encode_mod hcs hr2 hc2] at e2
  have e3 : r = r2 := by
    have := congrArg (fun t => t / cs) e2
    simpa [inner_div hcs hc, inner_div hcs hc2] using this
  have e4 : c = c2 := by
    have := congrArg (fun t => t % cs) e2
    simpa [inner_mod hcs hc, inner_mod hcs hc2] using this
  exact ⟨e1, e3, e4⟩

theorem div_of_range {cs b x : Nat} (h1 : b * cs ≤ x) (h2 : x < (b + 1) * cs) :
    x / cs = b := Nat.div_eq_of_lt_le h1 h2

theorem mod_of_range {cs b x : Nat} (h1 : b * cs ≤ x) (h2 : x < (b + 1) * cs) :
    x % cs = x - b * cs := by
  have h5 : (b + 1) * cs = b * cs + cs := by ring
  have ht : x - b * cs < cs := by omega
  calc x % cs = (x - b * cs + b * cs) % cs := by rw [Nat.sub_add_cancel h1]
    _ = (x - b * cs + cs * b) % cs := by rw [Nat.mul_comm b cs]
    _ = (x - b * cs) % cs := Nat.add_mul_mod_self_left _ _ _
    _ = x - b * cs := Nat.mod_eq_of_lt ht

/-! Claim theorems: error handling and storage lifecycle. -/

/-- C10: frobenius_norm on a default-constructed matrix (no bound pattern, no
allocated buffer, capacity 0) folds over the empty capacity-length extent and
yields 0 (the source returns the square root of this accumulator), performing
no precondition check at all — unlike the other norm and arithmetic
operations, which check for a bound pattern and an allocated buffer and fail
on the default-constructed matrix. -/
theorem claim_C10_frobenius_initial :
    ChunkSparseMatrix.initial.frobenius_norm_sqr = 0 ∧
    ChunkSparseMatrix.initial.l1_norm = none ∧
    (∀ src : Nat → ℤ, ChunkSparseMatrix.initial.vmult src = none) ∧
    (∀ u b : Nat → ℤ, ChunkSparseMatrix.initial.residual u b = none) ∧
    (∀ (f : ℤ) (B : ChunkSparseMatrix), ChunkSparseMatrix.initial.add f B = none) ∧
    (∀ B : ChunkSparseMatrix, ChunkSparseMatrix.initial.copy_from B = none) :=
  ⟨rfl, rfl, fun _ => rfl, fun _ _ => rfl, fun _ _ => rfl, fun _ => rfl⟩

/-- C3 failing input: bind a fresh matrix to patBig (required length 4), set
entry (1,1) to 5, then rebind to patSmall (required length 1).  The capacity
stays 4 but reinit delegates zeroing to operator=(0), which zeroes only the
new required length (1 element): the stale value 5 survives at buffer index 3
inside the allocated extent [0, 4), and frobenius_norm reports it for a 1 x 1
matrix that is logically zero.  This contradicts the claim (and the in-source
comment stating the entire allocated extent is zero-filled). -/
theorem claim_C3_stale_values_after_rebind :
    (((ChunkSparseMatrix.initial.reinit (0, patBig)).1.set_entry 1 1 5).map
      (fun A1 =>
        (((A1.reinit (1, patSmall)).1).maxLen,
         ((A1.reinit (1, patSmall)).1).val 3,
         ((A1.reinit (1, patSmall)).1).frobenius_norm_sqr))) =
      some (4, 5, 25) := by decide

/-- C7: binding to a non-empty pattern with stored chunks never shrinks the
capacity: the new max_len is the maximum of the old capacity and the required
length N = nnz * cs * cs, so capacity is monotone across successive reinit
calls, and a new buffer is allocated exactly when N exceeds the current
capacity — in particular a later bind to a smaller structure neither shrinks
capacity nor reallocates. -/
theorem claim_C7_capacity_monotone (A : ChunkSparseMatrix)
    (idp : Nat × ChunkPattern) (hne : idp.2.isEmpty = false)
    (hnnz : 0 < idp.2.nnz) (hcs : 0 < idp.2.cs) :
    (A.reinit idp).1.maxLen = max A.maxLen (idp.2.nnz * (idp.2.cs * idp.2.cs)) ∧
    A.maxLen ≤ (A.reinit idp).1.maxLen ∧
    ((A.reinit idp).2 = true ↔ A.maxLen < idp.2.nnz * (idp.2.cs * idp.2.cs)) := by
  have hN : 0 < idp.2.nnz * (idp.2.cs * idp.2.cs) :=
    Nat.mul_pos hnnz (Nat.mul_pos hcs hcs)
  unfold ChunkSparseMatrix.reinit
  simp only [hne, Bool.false_eq_true, if_false]
  rcases hg : (decide (A.maxLen < idp.2.nnz * (idp.2.cs * idp.2.cs)) ||
      decide (A.maxLen = 0)) with _ | _
  · have hfacts := Bool.or_eq_false_iff.mp hg
    have h1 : ¬(A.maxLen < idp.2.nnz * (idp.2.cs * idp.2.cs)) :=
      of_decide_eq_false hfacts.1
    have h2 : ¬(A.maxLen = 0) := of_decide_eq_false hfacts.2
    simp only [hg, Bool.false_eq_true, if_false]
    exact ⟨by omega, by omega, by simp; omega⟩
  · have hor := Bool.or_eq_true_iff.mp hg
    have h1 : A.maxLen < idp.2.nnz * (idp.2.cs * idp.2.cs) := by
      rcases hor with h | h
      · exact of_decide_eq_true h
      · have := of_decide_eq_true h
        omega
    simp only [hg, if_true]
    exact ⟨by omega, by omega, by simp [h1]⟩

/-- C7 witness: rebinding the matrix previously bound to patBig (capacity 4)
to the smaller patSmall keeps capacity 4 and does not reallocate. -/
theorem claim_C7_capacity_monotone_witness :
    ((1 : Nat), patSmall).2.isEmpty = false ∧ 0 < patSmall.nnz ∧ 0 < patSmall.cs ∧
    (((ChunkSparseMatrix.initial.reinit (0, patBig)).1.reinit (1, patSmall)).1.maxLen =
        max (ChunkSparseMatrix.initial.reinit (0, patBig)).1.maxLen
          (patSmall.nnz * (patSmall.cs * patSmall.cs)) ∧
      (ChunkSparseMatrix.initial.reinit (0, patBig)).1.maxLen ≤
        (((ChunkSparseMatrix.initial.reinit (0, patBig)).1).reinit (1, patSmall)).1.maxLen ∧
      ((((ChunkSparseMatrix.initial.reinit (0, patBig)).1).reinit (1, patSmall)).2 = true ↔
        (ChunkSparseMatrix.initial.reinit (0, patBig)).1.maxLen <
          patSmall.nnz * (patSmall.cs * patSmall.cs))) :=
  ⟨rfl, by decide, by decide,
    claim_C7_capacity_monotone (ChunkSparseMatrix.initial.reinit (0, patBig)).1
      (1, patSmall) rfl (by decide) (by decide)⟩

/-- C8: copying values via copy_from succeeds exactly when the source matrix
is bound to the identical pattern object (pointer identity, modelled by the
identity tag paired with the structure): on success the value buffer over the
required length, padding included, is copied verbatim; a source bound to a
structurally equal but distinct pattern object is rejected; and operator=
between matrices fails outright whenever the right-hand side is bound to any
pattern. -/
theorem claim_C8_copy_requires_identity (A B : ChunkSparseMatrix)
    (pat : Nat × ChunkPattern) (hA : A.cols = some pat) (ha : A.alloc = true) :
    ((A.copy_from B).isSome = true ↔ B.cols = some pat) ∧
    (∀ C, A.copy_from B = some C →
      ∀ t, t < pat.2.nnz * (pat.2.cs * pat.2.cs) → C.val t = B.val t) ∧
    (∀ id2, B.cols = some (id2, pat.2) → id2 ≠ pat.1 → A.copy_from B = none) ∧
    (B.cols ≠ none → A.assign B = none) := by
  refine ⟨?_, ?_, ?_, ?_⟩
  · by_cases hB : B.cols = some pat
    · simp [ChunkSparseMatrix.copy_from, hA, ha, hB]
    · simp [ChunkSparseMatrix.copy_from, hA, ha, hB]
  · intro C hC t ht
    by_cases hB : B.cols = some pat
    · simp only [ChunkSparseMatrix.copy_from, hA, ha, hB, if_true,
        Bool.true_eq_false, if_false, Option.some_inj] at hC
      rw [← hC]
      simp [ht]
    · simp [ChunkSparseMatrix.copy_from, hA, ha, hB] at hC
  · intro id2 hB2 hne
    have hB : ¬(B.cols = some pat) := by
      rw [hB2]
      intro hcon
      apply hne
      have := Option.some_inj.mp hcon
      exact congrArg Prod.fst this
    simp [ChunkSparseMatrix.copy_from, hA, ha, hB]
  · intro hB
    unfold ChunkSparseMatrix.assign
    rw [if_neg]
    intro hcon
    exact hB hcon.1

/-- C8 witness: two matrices bound to the pattern object tagged 0: copying
succeeds and reproduces the source buffer; and the assignment operator fails
against a bound right-hand side. -/
theorem claim_C8_copy_requires_identity_witness :
    mat33.cols = some (0, pat33) ∧ mat33.alloc = true ∧
    (((mat33.copy_from mat33).isSome = true ↔ mat33.cols = some (0, pat33)) ∧
      (∀ C, mat33.copy_from mat33 = some C →
        ∀ t, t < pat33.nnz * (pat33.cs * pat33.cs) → C.val t = mat33.val t) ∧
      (∀ id2, mat33.cols = some (id2, pat33) → id2 ≠ 0 → mat33.copy_from mat33 = none) ∧
      (mat33.cols ≠ none → mat33.assign mat33 = none)) :=
  ⟨rfl, rfl, claim_C8_copy_requires_identity mat33 mat33 (0, pat33) rfl rfl⟩

/-! Serialization round trip. -/

theorem readVals_append (l : List ℤ) (rest : List SerialItem) :
    readVals l.length (l.map SerialItem.valItem ++ rest) = some (l, rest) := by
  induction l with
  | nil => rfl
  | cons q l ih => simp [readVals, ih]

theorem readVals_of_len {n : Nat} (l : List ℤ) (rest : List SerialItem)
    (h : l.length = n) :
    readVals n (l.map SerialItem.valItem ++ rest) = some (l, rest) := by
  subst h
  exact readVals_append l rest

theorem getD_range_map {n t : Nat} (f : Nat → ℤ) (ht : t < n) :
    ((List.range n).map f).getD t 0 = f t := by
  rw [List.getD_eq_getElem?_getD, List.getElem?_map, List.getElem?_range ht]
  rfl

/-- C6: block_write followed by block_read into a matrix bound to the
identical sparsity pattern consumes the whole stream and reproduces the
original value buffer exactly, element for element, over the serialized
'[' capacity '][' raw-elements ']' format, together with the capacity. -/
theorem claim_C6_block_roundtrip (A B : ChunkSparseMatrix)
    (hsame : B.cols = A.cols) :
    ∃ C, B.block_read A.block_write = some (C, []) ∧
      C.cols = A.cols ∧ C.maxLen = A.maxLen ∧
      ∀ t, t < A.maxLen → C.val t = A.val t := by
  have hmap : (List.range A.maxLen).map (fun t => SerialItem.valItem (A.val t)) =
      ((List.range A.maxLen).map A.val).map SerialItem.valItem := by
    rw [List.map_map]
    rfl
  have hread : readVals A.maxLen
      ((((List.range A.maxLen).map A.val).map SerialItem.valItem) ++
        [SerialItem.rbra]) =
      some ((List.range A.maxLen).map A.val, [SerialItem.rbra]) :=
    readVals_of_len _ _ (by simp)
  refine ⟨{ B with maxLen := A.maxLen, alloc := true, val := fun t => ((List.range A.maxLen).map A.val).getD t 0 }, ?_, ?_, ?_, ?_⟩
  · unfold ChunkSparseMatrix.block_write ChunkSparseMatrix.block_read
    simp only [List.cons_append, List.nil_append, hmap]
    rw [hread]
  · exact hsame
  · rfl
  · intro t ht
    exact getD_range_map A.val ht

/-- C6 witness: round-tripping the concrete scenario matrix through the
serialized stream into a second matrix bound to the same pattern. -/
theorem claim_C6_block_roundtrip_witness :
    (⟨some (0, pat33), fun _ => 0, true, 8⟩ : ChunkSparseMatrix).cols = mat33.cols ∧
    ∃ C, (⟨some (0, pat33), fun _ => 0, true, 8⟩ :
        ChunkSparseMatrix).block_read mat33.block_write = some (C, []) ∧
      C.cols = mat33.cols ∧ C.maxLen = mat33.maxLen ∧
      ∀ t, t < mat33.maxLen → C.val t = mat33.val t :=
  ⟨rfl, claim_C6_block_roundtrip mat33 ⟨some (0, pat33), fun _ => 0, true, 8⟩ rfl⟩

/-! Padding invariant preservation. -/

theorem write_pos_not_padding {p : ChunkPattern} (hv : p.Valid) {i j k : Nat}
    (hi : i < p.m) (hj : j < p.n)
    (hf : p.findSlot (i / p.cs) (j / p.cs) = some k) :
    ∀ k2 r c, k2 < p.nnz → r < p.cs → c < p.cs →
      (p.m ≤ p.rowOfSlot k2 * p.cs + r ∨ p.n ≤ p.cn k2 * p.cs + c) →
      k2 * (p.cs * p.cs) + r * p.cs + c ≠
        k * (p.cs * p.cs) + (i % p.cs) * p.cs + (j % p.cs) := by
  intro k2 r c hk2 hr hc hpad heq
  have hcs := hv.cs_pos
  have hRlt : i / p.cs < p.nChunkRows := div_lt_nCR hcs hi
  obtain ⟨h1, h2, h3⟩ := findSlot_sound hv hRlt hf
  obtain ⟨ek, er, ec⟩ :=
    encode_inj hcs hr hc (Nat.mod_lt i hcs) (Nat.mod_lt j hcs) heq
  subst ek
  subst er
  subst ec
  have hrow : p.rowOfSlot k2 = i / p.cs := rowOfSlot_eq hv hRlt h1 h2
  rcases hpad with h | h
  · rw [hrow] at h
    have hdm := Nat.div_add_mod i p.cs
    have e : i / p.cs * p.cs = p.cs * (i / p.cs) := Nat.mul_comm _ _
    omega
  · rw [h3] at h
    have hdm := Nat.div_add_mod j p.cs
    have e : j / p.cs * p.cs = p.cs * (j / p.cs) := Nat.mul_comm _ _
    omega

/-- C2: the zero-padding invariant holds immediately after binding (reinit
zero-fills at least the entire required length, which contains every padding
position), and is preserved by every supported mutating operation: set_entry
and add_entry write only the position of an in-bounds logical entry, which is
never a padding position; copy_from copies the buffer of a matrix satisfying
the invariant verbatim; and add (scale-add) writes 0 + factor * 0 at padding
positions when both operands satisfy the invariant.  The remaining arithmetic
operations (multiply, transpose multiply, residual, norms) never write the
value buffer at all. -/
theorem claim_C2_padding_invariant (idp : Nat × ChunkPattern) (hv : idp.2.Valid) :
    (∀ A : ChunkSparseMatrix, PaddingZero idp.2 ((A.reinit idp).1).val) ∧
    (∀ (A A2 : ChunkSparseMatrix) (i j : Nat) (x : ℤ),
      A.cols = some idp → PaddingZero idp.2 A.val →
      A.set_entry i j x = some A2 → PaddingZero idp.2 A2.val) ∧
    (∀ (A A2 : ChunkSparseMatrix) (i j : Nat) (x : ℤ),
      A.cols = some idp → PaddingZero idp.2 A.val →
      A.add_entry i j x = some A2 → PaddingZero idp.2 A2.val) ∧
    (∀ (A B C : ChunkSparseMatrix), A.cols = some idp → PaddingZero idp.2 B.val →
      A.copy_from B = some C → PaddingZero idp.2 C.val) ∧
    (∀ (A B C : ChunkSparseMatrix) (f : ℤ),
      A.cols = some idp → PaddingZero idp.2 A.val →
      PaddingZero idp.2 B.val → A.add f B = some C → PaddingZero idp.2 C.val) := by
  have hcs := hv.cs_pos
  refine ⟨?_, ?_, ?_, ?_, ?_⟩
  · intro A k hk r hr c hc hpad
    simp only [Finset.mem_range] at hk hr hc
    have hlt : k * (idp.2.cs * idp.2.cs) + r * idp.2.cs + c <
        idp.2.nnz * (idp.2.cs * idp.2.cs) := encode_lt hk hr hc
    rcases hemp : idp.2.isEmpty with _ | _
    · simp [ChunkSparseMatrix.reinit, hemp, hlt]
    · simp [ChunkSparseMatrix.reinit, hemp]
  · intro A A2 i j x hA hpz hset
    simp only [ChunkSparseMatrix.set_entry, hA] at hset
    by_cases halloc : A.alloc = false
    · simp [halloc] at hset
    · rw [if_neg halloc] at hset
      by_cases hij : i < idp.2.m ∧ j < idp.2.n
      · rw [if_pos hij] at hset
        rcases hfs : idp.2.findSlot (i / idp.2.cs) (j / idp.2.cs) with _ | k
        · rw [hfs] at hset
          cases hset
        · rw [hfs] at hset
          have hA2 := Option.some_inj.mp hset
          subst hA2
          intro k2 hk2 r hr c hc hpad
          simp only [Finset.mem_range] at hk2 hr hc
          have hne := write_pos_not_padding hv hij.1 hij.2 hfs k2 r c hk2 hr hc hpad
          show Function.update A.val _ x _ = 0
          rw [Function.update_noteq hne]
          exact hpz k2 (Finset.mem_range.mpr hk2) r (Finset.mem_range.mpr hr)
            c (Finset.mem_range.mpr hc) hpad
      · rw [if_neg hij] at hset
        cases hset
  · intro A A2 i j x hA hpz hset
    simp only [ChunkSparseMatrix.add_entry, hA] at hset
    by_cases halloc : A.alloc = false
    · simp [halloc] at hset
    · rw [if_neg halloc] at hset
      by_cases hij : i < idp.2.m ∧ j < idp.2.n
      · rw [if_pos hij] at hset
        rcases hfs : idp.2.findSlot (i / idp.2.cs) (j / idp.2.cs) with _ | k
        · rw [hfs] at hset
          cases hset
        · rw [hfs] at hset
          have hA2 := Option.some_inj.mp hset
          subst hA2
          intro k2 hk2 r hr c hc hpad
          simp only [Finset.mem_range] at hk2 hr hc
          have hne := write_pos_not_padding hv hij.1 hij.2 hfs k2 r c hk2 hr hc hpad
          show Function.update A.val _ _ _ = 0
          rw [Function.update_noteq hne]
          exact hpz k2 (Finset.mem_range.mpr hk2) r (Finset.mem_range.mpr hr)
            c (Finset.mem_range.mpr hc) hpad
      · rw [if_neg hij] at hset
        cases hset
  · intro A B C hA hpzB hcopy
    simp only [ChunkSparseMatrix.copy_from, hA] at hcopy
    by_cases halloc : A.alloc = false
    · simp [halloc] at hcopy
    · rw [if_neg halloc] at hcopy
      by_cases hB : B.cols = some idp
      · rw [if_pos hB] at hcopy
        have hC := Option.some_inj.mp hcopy
        subst hC
        intro k hk r hr c hc hpad
        simp only [Finset.mem_range] at hk hr hc
        have hlt : k * (idp.2.cs * idp.2.cs) + r * idp.2.cs + c <
            idp.2.nnz * (idp.2.cs * idp.2.cs) := encode_lt hk hr hc
        show (if _ < idp.2.nnz * (idp.2.cs * idp.2.cs) then B.val _ else A.val _) = 0
        rw [if_pos hlt]
        exact hpzB k (Finset.mem_range.mpr hk) r (Finset.mem_range.mpr hr)
          c (Finset.mem_range.mpr hc) hpad
      · rw [if_neg hB] at hcopy
        cases hcopy
  · intro A B C f hA hpzA hpzB hadd
    simp only [ChunkSparseMatrix.add, hA] at hadd
    by_cases halloc : A.alloc = false
    · simp [halloc] at hadd
    · rw [if_neg halloc] at hadd
      by_cases hB : B.cols = some idp
      · rw [if_pos hB] at hadd
        have hC := Option.some_inj.mp hadd
        subst hC
        intro k hk r hr c hc hpad
        simp only [Finset.mem_range] at hk hr hc
        have hlt : k * (idp.2.cs * idp.2.cs) + r * idp.2.cs + c <
            idp.2.nnz * (idp.2.cs * idp.2.cs) := encode_lt hk hr hc
        show (if _ < idp.2.nnz * (idp.2.cs * idp.2.cs)
            then A.val _ + f * B.val _ else A.val _) = 0
        rw [if_pos hlt,
          hpzA k (Finset.mem_range.mpr hk) r (Finset.mem_range.mpr hr)
            c (Finset.mem_range.mpr hc) hpad,
          hpzB k (Finset.mem_range.mpr hk) r (Finset.mem_range.mpr hr)
            c (Finset.mem_range.mpr hc) hpad]
        ring
      · rw [if_neg hB] at hadd
        cases hadd

/-- C2 witness: the invariant instantiated at the concrete scenario pattern,
applied to the concrete matrix freshly rebound to it. -/
theorem claim_C2_padding_invariant_witness :
    pat33.Valid ∧ PaddingZero pat33 ((mat33.reinit (0, pat33)).1).val :=
  ⟨by decide, (claim_C2_padding_invariant (0, pat33) (by decide)).1 mat33⟩

/-! The traversal framework: per-chunk steps are shaped, and shaped steps
accumulate per-slot contributions over a row. -/

theorem runRow_shaped {cs doff rext : Nat} {g : Nat → Nat → ℤ}
    {step : TravState → TravState} (hs : StepShaped cs doff rext g step)
    (t : Nat) (s : TravState) (halign : s.valPtr = s.colnumPtr * (cs * cs)) :
    (runRow step t s).colnumPtr = s.colnumPtr + t ∧
    (runRow step t s).valPtr = (s.colnumPtr + t) * (cs * cs) ∧
    ∀ x, (runRow step t s).dst x =
      if doff ≤ x ∧ x - doff < rext then
        s.dst x + ∑ j ∈ Finset.Ico s.colnumPtr (s.colnumPtr + t), g j (x - doff)
      else s.dst x := by
  induction t generalizing s with
  | zero =>
    refine ⟨rfl, ?_, ?_⟩
    · show s.valPtr = (s.colnumPtr + 0) * (cs * cs)
      rw [halign, Nat.add_zero]
    · intro x
      show s.dst x = _
      rw [Nat.add_zero, Finset.Ico_self, Finset.sum_empty]
      by_cases hcond : doff ≤ x ∧ x - doff < rext
      · rw [if_pos hcond, add_zero]
      · rw [if_neg hcond]
  | succ t ih =>
    obtain ⟨h1, h2, h3⟩ := hs s
    have halign2 : (step s).valPtr = (step s).colnumPtr * (cs * cs) := by
      rw [h1, h2, halign]
      ring
    obtain ⟨ih1, ih2, ih3⟩ := ih (step s) halign2
    have hrw : runRow step (Nat.succ t) s = runRow step t (step s) := rfl
    refine ⟨?_, ?_, ?_⟩
    · rw [hrw, ih1, h1]
      omega
    · rw [hrw, ih2, h1]
      have e : s.colnumPtr + 1 + t = s.colnumPtr + Nat.succ t := by omega
      rw [e]
    · intro x
      rw [hrw, ih3 x, h1, h3 halign x]
      by_cases hcond : doff ≤ x ∧ x - doff < rext
      · rw [if_pos hcond, if_pos hcond, if_pos hcond,
          Finset.sum_eq_sum_Ico_succ_bot
            (show s.colnumPtr < s.colnumPtr + Nat.succ t by omega)
            (fun j => g j (x - doff))]
        have e : s.colnumPtr + 1 + t = s.colnumPtr + Nat.succ t := by omega
        rw [e]
        ring
      · rw [if_neg hcond, if_neg hcond, if_neg hcond]

theorem processChunkRegular_shaped (p : ChunkPattern) (values src : Nat → ℤ)
    (doff : Nat) :
    StepShaped p.cs doff p.cs (contrib p values src)
      (processChunkRegular p values src doff) := by
  intro s
  refine ⟨rfl, rfl, ?_⟩
  intro halign x
  show (if p.cn s.colnumPtr ≠ p.n / p.cs then
      applyAtOffset doff
        (chunk_vmult_add p.cs (fun t => values (s.valPtr + t))
          (fun t => src (p.cn s.colnumPtr * p.cs + t))) s.dst
    else fun x =>
      if doff ≤ x ∧ x - doff < p.cs then
        s.dst x + ∑ c ∈ Finset.range (p.n % p.cs),
          values (s.valPtr + (x - doff) * p.cs + c) *
            src (p.cn s.colnumPtr * p.cs + c)
      else s.dst x) x = _
  unfold contrib
  by_cases hcol : p.cn s.colnumPtr ≠ p.n / p.cs
  · rw [if_pos hcol, if_pos hcol]
    unfold applyAtOffset chunk_vmult_add
    by_cases h1 : doff ≤ x
    · by_cases h2 : x - doff < p.cs
      · rw [if_pos h1, if_pos h2, if_pos ⟨h1, h2⟩]
        simp only []
        rw [Nat.add_sub_cancel' h1, halign]
        simp only [Nat.add_assoc]
      · rw [if_pos h1, if_neg h2, if_neg (by tauto)]
        simp only []
        rw [Nat.add_sub_cancel' h1]
    · rw [if_neg h1, if_neg (by tauto)]
  · rw [if_neg hcol, if_neg hcol, halign]

theorem processChunkLast_shaped (p : ChunkPattern) (values src : Nat → ℤ)
    (doff : Nat) :
    StepShaped p.cs doff (p.m % p.cs) (contrib p values src)
      (processChunkLast p values src doff) := by
  intro s
  refine ⟨rfl, rfl, ?_⟩
  intro halign x
  show (if p.cn s.colnumPtr ≠ p.n / p.cs then
      fun x =>
        if doff ≤ x ∧ x - doff < p.m % p.cs then
          s.dst x + ∑ c ∈ Finset.range p.cs,
            values (s.valPtr + (x - doff) * p.cs + c) *
              src (p.cn s.colnumPtr * p.cs + c)
        else s.dst x
    else fun x =>
      if doff ≤ x ∧ x - doff < p.m % p.cs then
        s.dst x + ∑ c ∈ Finset.range (p.n % p.cs),
          values (s.valPtr + (x - doff) * p.cs + c) *
            src (p.cn s.colnumPtr * p.cs + c)
      else s.dst x) x = _
  unfold contrib
  by_cases hcol : p.cn s.colnumPtr ≠ p.n / p.cs
  · rw [if_pos hcol, if_pos hcol, halign]
  · rw [if_neg hcol, if_neg hcol, halign]

theorem processChunkResRegular_shaped (p : ChunkPattern) (values u : Nat → ℤ)
    (doff : Nat) :
    StepShaped p.cs doff p.cs (fun k r => -(contribRes p values u k r))
      (processChunkResRegular p values u doff) := by
  intro s
  refine ⟨rfl, rfl, ?_⟩
  intro halign x
  show (if p.n % p.cs = 0 ∨ p.cn s.colnumPtr ≠ p.nChunkCols - 1 then
      applyAtOffset doff
        (chunk_vmult_subtract p.cs (fun t => values (s.valPtr + t))
          (fun t => u (p.cn s.colnumPtr * p.cs + t))) s.dst
    else fun x =>
      if doff ≤ x ∧ x - doff < p.cs then
        s.dst x - ∑ c ∈ Finset.range (p.n % p.cs),
          values (s.valPtr + (x - doff) * p.cs + c) *
            u (p.cn s.colnumPtr * p.cs + c)
      else s.dst x) x = _
  unfold contribRes
  simp only []
  by_cases hcol : p.n % p.cs = 0 ∨ p.cn s.colnumPtr ≠ p.nChunkCols - 1
  · rw [if_pos hcol, if_pos hcol]
    unfold applyAtOffset chunk_vmult_subtract
    by_cases h1 : doff ≤ x
    · by_cases h2 : x - doff < p.cs
      · rw [if_pos h1, if_pos h2, if_pos ⟨h1, h2⟩]
        simp only []
        rw [Nat.add_sub_cancel' h1, halign, sub_eq_add_neg]
        simp only [Nat.add_assoc]
      · rw [if_pos h1, if_neg h2, if_neg (by tauto)]
        simp only []
        rw [Nat.add_sub_cancel' h1]
    · rw [if_neg h1, if_neg (by tauto)]
  · rw [if_neg hcol, if_neg hcol, halign, sub_eq_add_neg]

theorem processChunkResLast_shaped (p : ChunkPattern) (values u : Nat → ℤ)
    (doff : Nat) :
    StepShaped p.cs doff (p.m % p.cs) (fun k r => -(contribRes p values u k r))
      (processChunkResLast p values u doff) := by
  intro s
  refine ⟨rfl, rfl, ?_⟩
  intro halign x
  show (if p.n % p.cs = 0 ∨ p.cn s.colnumPtr ≠ p.nChunkCols - 1 then
      fun x =>
        if doff ≤ x ∧ x - doff < p.m % p.cs then
          s.dst x - ∑ c ∈ Finset.range p.cs,
            values (s.valPtr + (x - doff) * p.cs + c) *
              u (p.cn s.colnumPtr * p.cs + c)
        else s.dst x
    else fun x =>
      if doff ≤ x ∧ x - doff < p.m % p.cs then
        s.dst x - ∑ c ∈ Finset.range (p.n % p.cs),
          values (s.valPtr + (x - doff) * p.cs + c) *
            u (p.cn s.colnumPtr * p.cs + c)
      else s.dst x) x = _
  unfold contribRes
  simp only []
  by_cases hcol : p.n % p.cs = 0 ∨ p.cn s.colnumPtr ≠ p.nChunkCols - 1
  · rw [if_pos hcol, if_pos hcol, halign, sub_eq_add_neg]
  · rw [if_neg hcol, if_neg hcol, halign, sub_eq_add_neg]

theorem TravState.eta_eq (s : TravState) {a v : Nat} (h1 : s.colnumPtr = a)
    (h2 : s.valPtr = v) : s = ⟨a, v, s.dst⟩ := by
  cases s
  cases h1
  cases h2
  rfl

theorem foldRows_shaped (p : ChunkPattern) (hv : p.Valid)
    (stepFam : Nat → TravState → TravState) (g : Nat → Nat → Nat → ℤ)
    (hshape : ∀ r, StepShaped p.cs (r * p.cs) p.cs (g r) (stepFam r))
    (n : Nat) :
    ∀ b d, b + n ≤ p.nChunkRows →
    ((List.range' b n).foldl
        (fun s r => runRow (stepFam r) (p.rs (r + 1) - s.colnumPtr) s)
        ⟨p.rs b, p.rs b * (p.cs * p.cs), d⟩).colnumPtr = p.rs (b + n) ∧
    ((List.range' b n).foldl
        (fun s r => runRow (stepFam r) (p.rs (r + 1) - s.colnumPtr) s)
        ⟨p.rs b, p.rs b * (p.cs * p.cs), d⟩).valPtr =
      p.rs (b + n) * (p.cs * p.cs) ∧
    ∀ x, ((List.range' b n).foldl
        (fun s r => runRow (stepFam r) (p.rs (r + 1) - s.colnumPtr) s)
        ⟨p.rs b, p.rs b * (p.cs * p.cs), d⟩).dst x =
      if b * p.cs ≤ x ∧ x < (b + n) * p.cs then
        d x + ∑ j ∈ Finset.Ico (p.rs (x / p.cs)) (p.rs (x / p.cs + 1)),
          g (x / p.cs) j (x % p.cs)
      else d x := by
  induction n with
  | zero =>
    intro b d hbn
    refine ⟨by rw [Nat.add_zero]; rfl, by rw [Nat.add_zero]; rfl, ?_⟩
    intro x
    show d x = _
    rw [Nat.add_zero]
    rw [if_neg (by omega)]
  | succ n ih =>
    intro b d hbn
    have hbCR : b < p.nChunkRows := by omega
    have hle := hv.rs_succ_le hbCR
    have hrange : List.range' b (n + 1) = b :: List.range' (b + 1) n :=
      List.range'_succ b n 1
    have hfold : (List.range' b (n + 1)).foldl
        (fun s r => runRow (stepFam r) (p.rs (r + 1) - s.colnumPtr) s)
        ⟨p.rs b, p.rs b * (p.cs * p.cs), d⟩ =
      (List.range' (b + 1) n).foldl
        (fun s r => runRow (stepFam r) (p.rs (r + 1) - s.colnumPtr) s)
        (runRow (stepFam b) (p.rs (b + 1) - p.rs b)
          ⟨p.rs b, p.rs b * (p.cs * p.cs), d⟩) := by
      rw [hrange]
      rfl
    obtain ⟨hc1, hc2, hc3⟩ := runRow_shaped (hshape b) (p.rs (b + 1) - p.rs b)
      ⟨p.rs b, p.rs b * (p.cs * p.cs), d⟩ rfl
    have hsum : p.rs b + (p.rs (b + 1) - p.rs b) = p.rs (b + 1) := by omega
    rw [hsum] at hc1 hc2
    have hs1eq : runRow (stepFam b) (p.rs (b + 1) - p.rs b)
        ⟨p.rs b, p.rs b * (p.cs * p.cs), d⟩ =
      ⟨p.rs (b + 1), p.rs (b + 1) * (p.cs * p.cs),
        (runRow (stepFam b) (p.rs (b + 1) - p.rs b)
          ⟨p.rs b, p.rs b * (p.cs * p.cs), d⟩).dst⟩ :=
      TravState.eta_eq _ hc1 hc2
    rw [hfold, hs1eq]
    obtain ⟨ih1, ih2, ih3⟩ := ih (b + 1)
      (runRow (stepFam b) (p.rs (b + 1) - p.rs b)
        ⟨p.rs b, p.rs b * (p.cs * p.cs), d⟩).dst (by omega)
    have hbn1 : b + 1 + n = b + Nat.succ n := by omega
    rw [hbn1] at ih1 ih2 ih3
    refine ⟨ih1, ih2, ?_⟩
    intro x
    rw [ih3 x, hc3 x, hsum]
    have e1 : (b + 1) * p.cs = b * p.cs + p.cs := by ring
    have e2 : (b + Nat.succ n) * p.cs = b * p.cs + p.cs + n * p.cs := by
      rw [Nat.succ_eq_add_one]
      ring
    have e3 : (b + (n + 1)) * p.cs = b * p.cs + p.cs + n * p.cs := by ring
    by_cases hx1 : x < b * p.cs
    · rw [if_neg (by omega), if_neg (by omega), if_neg (by omega)]
    · by_cases hx2 : x < (b + 1) * p.cs
      · have hdiv : x / p.cs = b := div_of_range (by omega) (by omega)
        have hmod : x % p.cs = x - b * p.cs := mod_of_range (by omega) (by omega)
        rw [if_neg (by omega), if_pos (by constructor <;> omega),
          if_pos (by constructor <;> omega), hdiv, hmod]
      · have hinner : ¬(b * p.cs ≤ x ∧ x - b * p.cs < p.cs) := by omega
        rw [if_neg hinner]
        by_cases hx3 : x < (b + Nat.succ n) * p.cs
        · rw [if_pos (by constructor <;> omega), if_pos (by constructor <;> omega)]
        · rw [if_neg (by omega), if_neg (by omega)]

/-! Characterizing vmult_add_on_subrange by the row-padding cases. -/

theorem subrange_no_row_padding (p : ChunkPattern) (hmod : p.m % p.cs = 0)
    (b e : Nat) (values src d : Nat → ℤ) :
    vmult_add_on_subrange p b e values src d =
      (List.range' b (e - b)).foldl
        (fun s r => runRow (processChunkRegular p values src (r * p.cs))
          (p.rs (r + 1) - s.colnumPtr) s)
        ⟨p.rs b, p.rs b * (p.cs * p.cs), d⟩ := by
  unfold vmult_add_on_subrange
  simp [hmod]

theorem subrange_below_last (p : ChunkPattern) (hmod : 0 < p.m % p.cs)
    (b e : Nat) (he : e ≤ p.m / p.cs) (values src d : Nat → ℤ) :
    vmult_add_on_subrange p b e values src d =
      (List.range' b (e - b)).foldl
        (fun s r => runRow (processChunkRegular p values src (r * p.cs))
          (p.rs (r + 1) - s.colnumPtr) s)
        ⟨p.rs b, p.rs b * (p.cs * p.cs), d⟩ := by
  unfold vmult_add_on_subrange
  have h1 : min (p.m / p.cs) e = e := Nat.min_eq_right he
  have h2 : ¬(e = p.m / p.cs + 1) := by omega
  simp [hmod, h1, h2]

theorem subrange_with_last (p : ChunkPattern) (hmod : 0 < p.m % p.cs)
    (b : Nat) (values src d : Nat → ℤ) :
    vmult_add_on_subrange p b (p.m / p.cs + 1) values src d =
      runRow (processChunkLast p values src ((p.m / p.cs) * p.cs))
        (p.rs (p.m / p.cs + 1) -
          ((List.range' b (p.m / p.cs - b)).foldl
            (fun s r => runRow (processChunkRegular p values src (r * p.cs))
              (p.rs (r + 1) - s.colnumPtr) s)
            ⟨p.rs b, p.rs b * (p.cs * p.cs), d⟩).colnumPtr)
        ((List.range' b (p.m / p.cs - b)).foldl
          (fun s r => runRow (processChunkRegular p values src (r * p.cs))
            (p.rs (r + 1) - s.colnumPtr) s)
          ⟨p.rs b, p.rs b * (p.cs * p.cs), d⟩) := by
  unfold vmult_add_on_subrange
  have h1 : min (p.m / p.cs) (p.m / p.cs + 1) = p.m / p.cs :=
    Nat.min_eq_left (by omega)
  simp [hmod, h1]

/-- C9: for a valid compressed chunk structure and any chunk-row range
[beginRow, endRow) within bounds, the traversal's column-index cursor ends
exactly at rowstart[endRow] and its value cursor exactly at
rowstart[endRow] * cs * cs, for every combination of row and column padding
and regardless of the data: the source's debug assertions at the end of
vmult_add_on_subrange never fire. -/
theorem claim_C9_traversal_cursors (p : ChunkPattern) (hv : p.Valid)
    (beginRow endRow : Nat) (hbe : beginRow ≤ endRow)
    (hend : endRow ≤ p.nChunkRows) (values src d : Nat → ℤ) :
    (vmult_add_on_subrange p beginRow endRow values src d).colnumPtr =
      p.rs endRow ∧
    (vmult_add_on_subrange p beginRow endRow values src d).valPtr =
      p.rs endRow * (p.cs * p.cs) := by
  have hcs := hv.cs_pos
  by_cases hmod : p.m % p.cs = 0
  · rw [subrange_no_row_padding p hmod]
    obtain ⟨h1, h2, _⟩ := foldRows_shaped p hv _ _
      (fun r => processChunkRegular_shaped p values src (r * p.cs))
      (endRow - beginRow) beginRow d (by omega)
    have he : beginRow + (endRow - beginRow) = endRow := by omega
    rw [he] at h1 h2
    exact ⟨h1, h2⟩
  · have hmod2 : 0 < p.m % p.cs := Nat.pos_of_ne_zero hmod
    have hnCR := nCR_of_mod_pos hcs hmod2
    by_cases hle : endRow ≤ p.m / p.cs
    · rw [subrange_below_last p hmod2 _ _ hle]
      obtain ⟨h1, h2, _⟩ := foldRows_shaped p hv _ _
        (fun r => processChunkRegular_shaped p values src (r * p.cs))
        (endRow - beginRow) beginRow d (by omega)
      have he : beginRow + (endRow - beginRow) = endRow := by omega
      rw [he] at h1 h2
      exact ⟨h1, h2⟩
    · have he2 : endRow = p.m / p.cs + 1 := by omega
      subst he2
      rw [subrange_with_last p hmod2]
      obtain ⟨h1, h2, _⟩ := foldRows_shaped p hv _ _
        (fun r => processChunkRegular_shaped p values src (r * p.cs))
        (p.m / p.cs - beginRow) beginRow d (by omega)
      have hM : beginRow + (p.m / p.cs - beginRow) ≤ p.m / p.cs + 1 := by omega
      have halign : ((List.range' beginRow (p.m / p.cs - beginRow)).foldl
          (fun s r => runRow (processChunkRegular p values src (r * p.cs))
            (p.rs (r + 1) - s.colnumPtr) s)
          ⟨p.rs beginRow, p.rs beginRow * (p.cs * p.cs), d⟩).valPtr =
        ((List.range' beginRow (p.m / p.cs - beginRow)).foldl
          (fun s r => runRow (processChunkRegular p values src (r * p.cs))
            (p.rs (r + 1) - s.colnumPtr) s)
          ⟨p.rs beginRow, p.rs beginRow * (p.cs * p.cs), d⟩).colnumPtr *
            (p.cs * p.cs) := by
        rw [h1, h2]
      obtain ⟨hr1, hr2, _⟩ := runRow_shaped
        (processChunkLast_shaped p values src ((p.m / p.cs) * p.cs))
        (p.rs (p.m / p.cs + 1) -
          ((List.range' beginRow (p.m / p.cs - beginRow)).foldl
            (fun s r => runRow (processChunkRegular p values src (r * p.cs))
              (p.rs (r + 1) - s.colnumPtr) s)
            ⟨p.rs beginRow, p.rs beginRow * (p.cs * p.cs), d⟩).colnumPtr)
        _ halign
      rw [hr1, hr2, h1]
      have hmono : p.rs (beginRow + (p.m / p.cs - beginRow)) ≤
          p.rs (p.m / p.cs + 1) := rs_mono hv hM (by omega)
      constructor
      · omega
      · have : p.rs (beginRow + (p.m / p.cs - beginRow)) +
            (p.rs (p.m / p.cs + 1) -
              p.rs (beginRow + (p.m / p.cs - beginRow))) =
            p.rs (p.m / p.cs + 1) := by omega
        rw [this]

theorem nCC_of_mod_pos {p : ChunkPattern} (hcs : 0 < p.cs)
    (hmod : 0 < p.n % p.cs) : p.nChunkCols = p.n / p.cs + 1 := by
  have hn : 0 < p.n := by
    rcases Nat.eq_zero_or_pos p.n with h | h
    · rw [h] at hmod; simp at hmod
    · exact h
  rw [nCC_eq hcs hn]
  have hdm := Nat.div_add_mod p.n p.cs
  have hlt := Nat.mod_lt p.n hcs
  have hdiv : (p.n - 1) / p.cs = p.n / p.cs := by
    apply Nat.div_eq_of_lt_le
    · have e1 : p.n / p.cs * p.cs = p.cs * (p.n / p.cs) := Nat.mul_comm _ _
      omega
    · have e2 : (p.n / p.cs + 1) * p.cs = p.cs * (p.n / p.cs) + p.cs := by ring
      omega
  omega

theorem nCC_of_mod_zero {p : ChunkPattern} (hcs : 0 < p.cs) (hn : 0 < p.n)
    (hmod : p.n % p.cs = 0) : p.nChunkCols = p.n / p.cs := by
  rw [nCC_eq hcs hn]
  have hdm := Nat.div_add_mod p.n p.cs
  have hq : 0 < p.n / p.cs := by
    rcases Nat.eq_zero_or_pos (p.n / p.cs) with h | h
    · rw [h] at hdm; omega
    · exact h
  have hdiv : (p.n - 1) / p.cs = p.n / p.cs - 1 := by
    apply Nat.div_eq_of_lt_le
    · have e1 : (p.n / p.cs - 1) * p.cs = p.n / p.cs * p.cs - p.cs := by
        rw [Nat.sub_mul, Nat.one_mul]
      have e2 : p.n / p.cs * p.cs = p.cs * (p.n / p.cs) := Nat.mul_comm _ _
      omega
    · have e3 : (p.n / p.cs - 1 + 1) * p.cs = p.n / p.cs * p.cs := by
        rw [Nat.sub_add_cancel hq]
      have e2 : p.n / p.cs * p.cs = p.cs * (p.n / p.cs) := Nat.mul_comm _ _
      omega
  omega

theorem div_lt_nCC {p : ChunkPattern} (hcs : 0 < p.cs) {j : Nat} (hj : j < p.n) :
    j / p.cs < p.nChunkCols := by
  rw [nCC_eq hcs (by omega)]
  have := Nat.div_le_div_right (c := p.cs) (show j ≤ p.n - 1 by omega)
  omega

theorem contrib_eq_full (p : ChunkPattern) (hv : p.Valid)
    {values : Nat → ℤ} (hpz : PaddingZero p values) (src : Nat → ℤ)
    {k : Nat} (hk : k < p.nnz) {r : Nat} (hr : r < p.cs) :
    contrib p values src k r =
      ∑ c ∈ Finset.range p.cs,
        values (k * (p.cs * p.cs) + r * p.cs + c) * src (p.cn k * p.cs + c) := by
  unfold contrib
  by_cases hcol : p.cn k ≠ p.n / p.cs
  · rw [if_pos hcol]
  · rw [if_neg hcol]
    push_neg at hcol
    have hmodle : p.n % p.cs ≤ p.cs := le_of_lt (Nat.mod_lt p.n hv.cs_pos)
    rw [Finset.range_eq_Ico, ← Finset.sum_Ico_consecutive _
      (Nat.zero_le (p.n % p.cs)) hmodle, ← Finset.range_eq_Ico]
    have hzero : ∑ c ∈ Finset.Ico (p.n % p.cs) p.cs,
        values (k * (p.cs * p.cs) + r * p.cs + c) * src (p.cn k * p.cs + c) = 0 := by
      apply Finset.sum_eq_zero
      intro c hc
      obtain ⟨hc1, hc2⟩ := Finset.mem_Ico.mp hc
      have hpad : p.n ≤ p.cn k * p.cs + c := by
        rw [hcol]
        have hdm := Nat.div_add_mod p.n p.cs
        have e : p.n / p.cs * p.cs = p.cs * (p.n / p.cs) := Nat.mul_comm _ _
        omega
      rw [hpz k (Finset.mem_range.mpr hk) r (Finset.mem_range.mpr hr)
        c (Finset.mem_range.mpr hc2) (Or.inr hpad), zero_mul]
    rw [hzero, add_zero]

theorem contribRes_eq_contrib (p : ChunkPattern) (hv : p.Valid)
    (values u : Nat → ℤ) {k : Nat} (hk : k < p.nnz) (r : Nat) :
    contribRes p values u k r = contrib p values u k r := by
  unfold contrib contribRes
  by_cases hmod : p.n % p.cs = 0
  · have h1 := hv.cn_lt hk
    have h2 : p.nChunkCols = p.n / p.cs :=
      nCC_of_mod_zero hv.cs_pos hv.n_pos hmod
    rw [h2] at h1
    rw [if_pos (Or.inl hmod), if_pos (Nat.ne_of_lt h1)]
  · have hmod2 : 0 < p.n % p.cs := Nat.pos_of_ne_zero hmod
    have hnCC := nCC_of_mod_pos hv.cs_pos hmod2
    have he : p.nChunkCols - 1 = p.n / p.cs := by
      rw [hnCC, Nat.add_sub_cancel]
    rw [he]
    by_cases hcol : p.cn k ≠ p.n / p.cs
    · rw [if_pos (Or.inr hcol), if_pos hcol]
    · rw [if_neg (by tauto), if_neg hcol]

theorem sum_range_mul_split (a b : Nat) (f : Nat → ℤ) :
    ∑ t ∈ Finset.range (a * b), f t =
      ∑ i ∈ Finset.range a, ∑ j ∈ Finset.range b, f (i * b + j) := by
  induction a with
  | zero => simp
  | succ a ih =>
    have h1 : Nat.succ a * b = a * b + b := by
      rw [Nat.succ_eq_add_one]
      ring
    rw [h1, Finset.sum_range_succ, ← ih, Finset.range_eq_Ico,
      ← Finset.sum_Ico_consecutive f (Nat.zero_le (a * b))
        (show a * b ≤ a * b + b by omega),
      ← Finset.range_eq_Ico]
    congr 1
    rw [Finset.sum_Ico_eq_sum_range]
    have h2 : a * b + b - a * b = b := by omega
    rw [h2]

theorem entry_eq_entryAt (p : ChunkPattern) (values : Nat → ℤ) (i j : Nat) :
    entry p values i j =
      entryAt p values (i / p.cs) (i % p.cs) (j / p.cs) (j % p.cs) := rfl

theorem entryAt_of_slot (p : ChunkPattern) (hv : p.Valid) (values : Nat → ℤ)
    {R k : Nat} (hR : R < p.nChunkRows) (h1 : p.rs R ≤ k)
    (h2 : k < p.rs (R + 1)) (r c : Nat) :
    entryAt p values R r (p.cn k) c =
      values (k * (p.cs * p.cs) + r * p.cs + c) := by
  unfold entryAt
  rw [findSlot_of_slot hv hR h1 h2]

theorem row_sum_eq_logical (p : ChunkPattern) (hv : p.Valid)
    {values : Nat → ℤ} (hpz : PaddingZero p values) (src : Nat → ℤ)
    {i : Nat} (hi : i < p.m) :
    ∑ j ∈ Finset.Ico (p.rs (i / p.cs)) (p.rs (i / p.cs + 1)),
      (∑ c ∈ Finset.range p.cs,
        values (j * (p.cs * p.cs) + (i % p.cs) * p.cs + c) *
          src (p.cn j * p.cs + c)) =
    ∑ j ∈ Finset.range p.n, entry p values i j * src j := by
  have hcs := hv.cs_pos
  have hR : i / p.cs < p.nChunkRows := div_lt_nCR hcs hi
  have hr : i % p.cs < p.cs := Nat.mod_lt i hcs
  have hT : ∀ k ∈ Finset.Ico (p.rs (i / p.cs)) (p.rs (i / p.cs + 1)),
      k < p.nnz := fun k hk => slot_lt_nnz hv hR (Finset.mem_Ico.mp hk).2
  have hinj : ∀ x ∈ Finset.Ico (p.rs (i / p.cs)) (p.rs (i / p.cs + 1)),
      ∀ y ∈ Finset.Ico (p.rs (i / p.cs)) (p.rs (i / p.cs + 1)),
      p.cn x = p.cn y → x = y := by
    intro x hx y hy hxy
    obtain ⟨hx1, hx2⟩ := Finset.mem_Ico.mp hx
    obtain ⟨hy1, hy2⟩ := Finset.mem_Ico.mp hy
    rcases Nat.lt_trichotomy x y with h | h | h
    · have := hv.sorted hR (hT x hx) (hT y hy) hx1 h hy2
      omega
    · exact h
    · have := hv.sorted hR (hT y hy) (hT x hx) hy1 h hx2
      omega
  calc
    ∑ j ∈ Finset.Ico (p.rs (i / p.cs)) (p.rs (i / p.cs + 1)),
        (∑ c ∈ Finset.range p.cs,
          values (j * (p.cs * p.cs) + (i % p.cs) * p.cs + c) *
            src (p.cn j * p.cs + c))
      = ∑ k ∈ Finset.Ico (p.rs (i / p.cs)) (p.rs (i / p.cs + 1)),
          (∑ c ∈ Finset.range p.cs,
            entryAt p values (i / p.cs) (i % p.cs) (p.cn k) c *
              src (p.cn k * p.cs + c)) := by
        apply Finset.sum_congr rfl
        intro k hk
        obtain ⟨hk1, hk2⟩ := Finset.mem_Ico.mp hk
        apply Finset.sum_congr rfl
        intro c _
        rw [entryAt_of_slot p hv values hR hk1 hk2]
    _ = ∑ C ∈ (Finset.Ico (p.rs (i / p.cs))
            (p.rs (i / p.cs + 1))).image p.cn,
          (∑ c ∈ Finset.range p.cs,
            entryAt p values (i / p.cs) (i % p.cs) C c * src (C * p.cs + c)) := by
        rw [Finset.sum_image hinj]
    _ = ∑ C ∈ Finset.range p.nChunkCols,
          (∑ c ∈ Finset.range p.cs,
            entryAt p values (i / p.cs) (i % p.cs) C c * src (C * p.cs + c)) := by
        apply Finset.sum_subset
        · intro C hC
          obtain ⟨k, hk, hkC⟩ := Finset.mem_image.mp hC
          rw [Finset.mem_range, ← hkC]
          exact hv.cn_lt (hT k hk)
        · intro C hC hCni
          apply Finset.sum_eq_zero
          intro c _
          unfold entryAt
          rcases hfs : p.findSlot (i / p.cs) C with _ | k
          · simp only [zero_mul]
          · obtain ⟨h1, h2, h3⟩ := findSlot_sound hv hR hfs
            exact absurd (Finset.mem_image.mpr
              ⟨k, Finset.mem_Ico.mpr ⟨h1, h2⟩, h3⟩) hCni
    _ = ∑ C ∈ Finset.range p.nChunkCols,
          (∑ c ∈ Finset.range p.cs,
            entry p values i (C * p.cs + c) * src (C * p.cs + c)) := by
        apply Finset.sum_congr rfl
        intro C _
        apply Finset.sum_congr rfl
        intro c hc
        rw [entry_eq_entryAt, inner_div hcs (Finset.mem_range.mp hc),
          inner_mod hcs (Finset.mem_range.mp hc)]
    _ = ∑ j ∈ Finset.range (p.nChunkCols * p.cs),
          entry p values i j * src j :=
        (sum_range_mul_split p.nChunkCols p.cs
          (fun j => entry p values i j * src j)).symm
    _ = ∑ j ∈ Finset.range p.n, entry p values i j * src j := by
        symm
        apply Finset.sum_subset
        · exact Finset.range_subset.mpr (nCC_mul_ge hcs hv.n_pos)
        · intro j hj hjn
          rw [Finset.mem_range] at hj
          have hjn2 : p.n ≤ j := by
            rw [Finset.mem_range] at hjn
            omega
          rw [entry_eq_entryAt]
          unfold entryAt
          rcases hfs : p.findSlot (i / p.cs) (j / p.cs) with _ | k
          · simp only [zero_mul]
          · obtain ⟨h1, h2, h3⟩ := findSlot_sound hv hR hfs
            have hpad : p.n ≤ p.cn k * p.cs + j % p.cs := by
              rw [h3]
              have hdm := Nat.div_add_mod j p.cs
              have e : j / p.cs * p.cs = p.cs * (j / p.cs) := Nat.mul_comm _ _
              omega
            simp only []
            rw [hpz k (Finset.mem_range.mpr (slot_lt_nnz hv hR h2))
              (i % p.cs) (Finset.mem_range.mpr hr)
              (j % p.cs) (Finset.mem_range.mpr (Nat.mod_lt j hcs))
              (Or.inr hpad), zero_mul]

/-- C9 witness: the concrete scenario pattern over its full chunk-row range:
the cursors end exactly at rowstart[2] = 2 and 2 * 4 = 8. -/
theorem claim_C9_traversal_cursors_witness :
    pat33.Valid ∧ (0 : Nat) ≤ 2 ∧ 2 ≤ pat33.nChunkRows ∧
    ((vmult_add_on_subrange pat33 0 2 mat33.val src123 (fun _ => 0)).colnumPtr =
        pat33.rs 2 ∧
      (vmult_add_on_subrange pat33 0 2 mat33.val src123 (fun _ => 0)).valPtr =
        pat33.rs 2 * (pat33.cs * pat33.cs)) :=
  ⟨by decide, by decide, by decide,
    claim_C9_traversal_cursors pat33 (by decide) 0 2 (by decide) (by decide)
      mat33.val src123 (fun _ => 0)⟩

/-- The destination produced by the full-range forward traversal: for every
logical row index x, its own chunk row's stored slots contribute, and indices
at or beyond the logical row count are untouched. -/
theorem vmult_traverse_dst (p : ChunkPattern) (hv : p.Valid)
    (values src d : Nat → ℤ) (x : Nat) :
    (vmult_add_on_subrange p 0 p.nChunkRows values src d).dst x =
      if x < p.m then
        d x + ∑ j ∈ Finset.Ico (p.rs (x / p.cs)) (p.rs (x / p.cs + 1)),
          contrib p values src j (x % p.cs)
      else d x := by
  have hcs := hv.cs_pos
  have hm := hv.m_pos
  by_cases hmod : p.m % p.cs = 0
  · rw [subrange_no_row_padding p hmod]
    obtain ⟨_, _, h3⟩ := foldRows_shaped p hv _ _
      (fun r => processChunkRegular_shaped p values src (r * p.cs))
      (p.nChunkRows - 0) 0 d (by omega)
    have he : (0 : Nat) + (p.nChunkRows - 0) = p.nChunkRows := by simp
    rw [he] at h3
    rw [h3 x]
    have hnm : p.nChunkRows * p.cs = p.m := by
      rw [nCR_of_mod_zero hcs hm hmod]
      exact Nat.div_mul_cancel (Nat.dvd_of_mod_eq_zero hmod)
    by_cases hx : x < p.m
    · rw [if_pos (by constructor <;> omega), if_pos hx]
    · rw [if_neg (by omega), if_neg hx]
  · have hmod2 : 0 < p.m % p.cs := Nat.pos_of_ne_zero hmod
    have hnCR := nCR_of_mod_pos hcs hmod2
    obtain ⟨h1, h2, h3⟩ := foldRows_shaped p hv _ _
      (fun r => processChunkRegular_shaped p values src (r * p.cs))
      (p.m / p.cs - 0) 0 d (by omega)
    rw [hnCR, subrange_with_last p hmod2]
    have he : (0 : Nat) + (p.m / p.cs - 0) = p.m / p.cs := by simp
    rw [he] at h1 h2 h3
    have halign : ((List.range' 0 (p.m / p.cs - 0)).foldl
        (fun s r => runRow (processChunkRegular p values src (r * p.cs))
          (p.rs (r + 1) - s.colnumPtr) s)
        ⟨p.rs 0, p.rs 0 * (p.cs * p.cs), d⟩).valPtr =
      ((List.range' 0 (p.m / p.cs - 0)).foldl
        (fun s r => runRow (processChunkRegular p values src (r * p.cs))
          (p.rs (r + 1) - s.colnumPtr) s)
        ⟨p.rs 0, p.rs 0 * (p.cs * p.cs), d⟩).colnumPtr * (p.cs * p.cs) := by
      rw [h1, h2]
    obtain ⟨hr1, hr2, hr3⟩ := runRow_shaped
      (processChunkLast_shaped p values src ((p.m / p.cs) * p.cs))
      (p.rs (p.m / p.cs + 1) -
        ((List.range' 0 (p.m / p.cs - 0)).foldl
          (fun s r => runRow (processChunkRegular p values src (r * p.cs))
            (p.rs (r + 1) - s.colnumPtr) s)
          ⟨p.rs 0, p.rs 0 * (p.cs * p.cs), d⟩).colnumPtr)
      _ halign
    rw [hr3 x, h3 x, h1]
    have hrow : p.m / p.cs < p.nChunkRows := by omega
    have hmono := hv.rs_succ_le hrow
    have hsum : p.rs (p.m / p.cs) +
        (p.rs (p.m / p.cs + 1) - p.rs (p.m / p.cs)) = p.rs (p.m / p.cs + 1) := by
      omega
    rw [hsum]
    have hdm := Nat.div_add_mod p.m p.cs
    have hmc : p.m / p.cs * p.cs = p.cs * (p.m / p.cs) := Nat.mul_comm _ _
    have hm1 : (p.m / p.cs + 1) * p.cs = p.cs * (p.m / p.cs) + p.cs := by ring
    have hmodlt : p.m % p.cs < p.cs := Nat.mod_lt p.m hcs
    by_cases hxa : x < p.m / p.cs * p.cs
    · rw [if_neg (by omega), if_pos (by constructor <;> omega),
        if_pos (by omega)]
    · by_cases hxb : x < p.m
      · have hdiv : x / p.cs = p.m / p.cs := div_of_range (by omega) (by omega)
        have hmodx : x % p.cs = x - p.m / p.cs * p.cs :=
          mod_of_range (by omega) (by omega)
        rw [if_pos (by constructor <;> omega), if_neg (by omega),
          if_pos hxb, hdiv, hmodx]
      · rw [if_neg (by omega), if_neg (by omega), if_neg hxb]

/-- C1: for every matrix bound to a valid sparsity structure whose padding
positions are all zero, vmult produces exactly the logical matrix-vector
product: entry i of the result is the sum over the stored logical entries
(i, j) of A[i,j] * src[j], independent of the destination's prior contents
(vmult zeroes dst before accumulating); positions at or beyond m_logical are
never written (they remain at the zero the overwrite left); and positions of
src at or beyond n_logical are never read (the result only depends on the
first n_logical source entries). -/
theorem claim_C1_vmult_is_logical_product (A : ChunkSparseMatrix)
    (idp : Nat × ChunkPattern) (src : Nat → ℤ) (hA : A.cols = some idp)
    (ha : A.alloc = true) (hv : idp.2.Valid)
    (hpz : PaddingZero idp.2 A.val) :
    ∃ dst : Nat → ℤ, A.vmult src = some dst ∧
      (∀ i, i < idp.2.m →
        dst i = ∑ j ∈ Finset.range idp.2.n, entry idp.2 A.val i j * src j) ∧
      (∀ i, idp.2.m ≤ i → dst i = 0) ∧
      (∀ src2 : Nat → ℤ, (∀ j, j < idp.2.n → src2 j = src j) →
        A.vmult src2 = some dst) := by
  have hvm : ∀ s : Nat → ℤ, A.vmult s =
      some (vmult_add_on_subrange idp.2 0 idp.2.nChunkRows A.val s
        (fun _ => 0)).dst := by
    intro s
    simp [ChunkSparseMatrix.vmult, ChunkSparseMatrix.vmult_add, hA, ha]
  have hchar : ∀ (s : Nat → ℤ) (x : Nat),
      (vmult_add_on_subrange idp.2 0 idp.2.nChunkRows A.val s
        (fun _ => 0)).dst x =
      if x < idp.2.m then
        ∑ j ∈ Finset.range idp.2.n, entry idp.2 A.val x j * s j
      else 0 := by
    intro s x
    rw [vmult_traverse_dst idp.2 hv A.val s (fun _ => 0) x]
    by_cases hx : x < idp.2.m
    · rw [if_pos hx, if_pos hx, zero_add]
      rw [← row_sum_eq_logical idp.2 hv hpz s hx]
      apply Finset.sum_congr rfl
      intro k hk
      exact contrib_eq_full idp.2 hv hpz s
        (slot_lt_nnz hv (div_lt_nCR hv.cs_pos hx) (Finset.mem_Ico.mp hk).2)
        (Nat.mod_lt x hv.cs_pos)
    · rw [if_neg hx, if_neg hx]
  refine ⟨(vmult_add_on_subrange idp.2 0 idp.2.nChunkRows A.val src
    (fun _ => 0)).dst, hvm src, ?_, ?_, ?_⟩
  · intro i hi
    rw [hchar src i, if_pos hi]
  · intro i hi
    rw [hchar src i, if_neg (by omega)]
  · intro src2 hsrc2
    rw [hvm src2]
    congr 1
    funext x
    rw [hchar src2 x, hchar src x]
    by_cases hx : x < idp.2.m
    · rw [if_pos hx, if_pos hx]
      apply Finset.sum_congr rfl
      intro j hj
      rw [hsrc2 j (Finset.mem_range.mp hj)]
    · rw [if_neg hx, if_neg hx]

/-- C1 witness: the concrete scenario — chunk size 2, logical dims 3 x 3,
chunks stored at (0,0) and (1,1), entries (0,0)=(1,1)=(2,2)=1 — multiplied by
src = [1,2,3] yields exactly [1,2,3], with position 3 never written. -/
theorem claim_C1_vmult_is_logical_product_witness :
    (mat33.cols = some (0, pat33) ∧ mat33.alloc = true ∧
      pat33.Valid ∧ PaddingZero pat33 mat33.val) ∧
    ((mat33.vmult src123).map (fun d => (d 0, d 1, d 2, d 3)) =
      some (1, 2, 3, 0)) ∧
    (∃ dst : Nat → ℤ, mat33.vmult src123 = some dst ∧
      (∀ i, i < pat33.m →
        dst i = ∑ j ∈ Finset.range pat33.n, entry pat33 mat33.val i j * src123 j) ∧
      (∀ i, pat33.m ≤ i → dst i = 0) ∧
      (∀ src2 : Nat → ℤ, (∀ j, j < pat33.n → src2 j = src123 j) →
        mat33.vmult src2 = some dst)) :=
  ⟨⟨rfl, rfl, by decide, by decide⟩, by decide,
    claim_C1_vmult_is_logical_product mat33 (0, pat33) src123 rfl rfl
      (by decide) (by decide)⟩

/-! The residual traversal. -/

theorem residualTraverse_no_pad (p : ChunkPattern) (hmod : p.m % p.cs = 0)
    (values u b : Nat → ℤ) :
    residualTraverse p values u b =
      (List.range' 0 p.nChunkRows).foldl
        (fun s r => runRow (processChunkResRegular p values u (r * p.cs))
          (p.rs (r + 1) - s.colnumPtr) s) ⟨0, 0, b⟩ := by
  unfold residualTraverse
  simp [hmod]

theorem residualTraverse_pad (p : ChunkPattern) (hv : p.Valid)
    (hmod : 0 < p.m % p.cs) (values u b : Nat → ℤ) :
    residualTraverse p values u b =
      runRow (processChunkResLast p values u ((p.m / p.cs) * p.cs))
        (p.rs (p.m / p.cs + 1) -
          ((List.range' 0 (p.m / p.cs)).foldl
            (fun s r => runRow (processChunkResRegular p values u (r * p.cs))
              (p.rs (r + 1) - s.colnumPtr) s) ⟨0, 0, b⟩).colnumPtr)
        ((List.range' 0 (p.m / p.cs)).foldl
          (fun s r => runRow (processChunkResRegular p values u (r * p.cs))
            (p.rs (r + 1) - s.colnumPtr) s) ⟨0, 0, b⟩) := by
  unfold residualTraverse
  have hnCR := nCR_of_mod_pos hv.cs_pos hmod
  have h1 : p.nChunkRows - 1 = p.m / p.cs := by rw [hnCR, Nat.add_sub_cancel]
  simp [hmod, h1]

theorem residual_traverse_dst (p : ChunkPattern) (hv : p.Valid)
    (values u b : Nat → ℤ) (x : Nat) :
    (residualTraverse p values u b).dst x =
      if x < p.m then
        b x + ∑ j ∈ Finset.Ico (p.rs (x / p.cs)) (p.rs (x / p.cs + 1)),
          -(contribRes p values u j (x % p.cs))
      else b x := by
  have hcs := hv.cs_pos
  have hm := hv.m_pos
  have hstate : (⟨0, 0, b⟩ : TravState) =
      ⟨p.rs 0, p.rs 0 * (p.cs * p.cs), b⟩ := by
    rw [hv.rs_zero, Nat.zero_mul]
  by_cases hmod : p.m % p.cs = 0
  · rw [residualTraverse_no_pad p hmod, hstate]
    obtain ⟨_, _, h3⟩ := foldRows_shaped p hv _ _
      (fun r => processChunkResRegular_shaped p values u (r * p.cs))
      p.nChunkRows 0 b (by omega)
    rw [Nat.zero_add] at h3
    rw [h3 x]
    have hnm : p.nChunkRows * p.cs = p.m := by
      rw [nCR_of_mod_zero hcs hm hmod]
      exact Nat.div_mul_cancel (Nat.dvd_of_mod_eq_zero hmod)
    by_cases hx : x < p.m
    · rw [if_pos (by constructor <;> omega), if_pos hx]
    · rw [if_neg (by omega), if_neg hx]
  · have hmod2 : 0 < p.m % p.cs := Nat.pos_of_ne_zero hmod
    have hnCR := nCR_of_mod_pos hcs hmod2
    rw [residualTraverse_pad p hv hmod2, hstate]
    obtain ⟨h1, h2, h3⟩ := foldRows_shaped p hv _ _
      (fun r => processChunkResRegular_shaped p values u (r * p.cs))
      (p.m / p.cs) 0 b (by omega)
    rw [Nat.zero_add] at h1 h2 h3
    have halign : ((List.range' 0 (p.m / p.cs)).foldl
        (fun s r => runRow (processChunkResRegular p values u (r * p.cs))
          (p.rs (r + 1) - s.colnumPtr) s)
        ⟨p.rs 0, p.rs 0 * (p.cs * p.cs), b⟩).valPtr =
      ((List.range' 0 (p.m / p.cs)).foldl
        (fun s r => runRow (processChunkResRegular p values u (r * p.cs))
          (p.rs (r + 1) - s.colnumPtr) s)
        ⟨p.rs 0, p.rs 0 * (p.cs * p.cs), b⟩).colnumPtr * (p.cs * p.cs) := by
      rw [h1, h2]
    obtain ⟨hr1, hr2, hr3⟩ := runRow_shaped
      (processChunkResLast_shaped p values u ((p.m / p.cs) * p.cs))
      (p.rs (p.m / p.cs + 1) -
        ((List.range' 0 (p.m / p.cs)).foldl
          (fun s r => runRow (processChunkResRegular p values u (r * p.cs))
            (p.rs (r + 1) - s.colnumPtr) s)
          ⟨p.rs 0, p.rs 0 * (p.cs * p.cs), b⟩).colnumPtr)
      _ halign
    rw [hr3 x, h3 x, h1]
    have hrow : p.m / p.cs < p.nChunkRows := by omega
    have hmono := hv.rs_succ_le hrow
    have hsum : p.rs (p.m / p.cs) +
        (p.rs (p.m / p.cs + 1) - p.rs (p.m / p.cs)) = p.rs (p.m / p.cs + 1) := by
      omega
    rw [hsum]
    have hdm := Nat.div_add_mod p.m p.cs
    have hmc : p.m / p.cs * p.cs = p.cs * (p.m / p.cs) := Nat.mul_comm _ _
    have hm1 : (p.m / p.cs + 1) * p.cs = p.cs * (p.m / p.cs) + p.cs := by ring
    have hmodlt : p.m % p.cs < p.cs := Nat.mod_lt p.m hcs
    by_cases hxa : x < p.m / p.cs * p.cs
    · rw [if_neg (by omega), if_pos (by constructor <;> omega),
        if_pos (by omega)]
    · by_cases hxb : x < p.m
      · have hdiv : x / p.cs = p.m / p.cs := div_of_range (by omega) (by omega)
        have hmodx : x % p.cs = x - p.m / p.cs * p.cs :=
          mod_of_range (by omega) (by omega)
        rw [if_pos (by constructor <;> omega), if_neg (by omega),
          if_pos hxb, hdiv, hmodx]
      · rw [if_neg (by omega), if_neg (by omega), if_neg hxb]

/-- C4: for every matrix bound to a valid sparsity structure with the zero
padding invariant, residual(dst, u, b) sets dst to b - A*u on the logical
rows (entries at or beyond m_logical keep the value copied from b) and
returns the Euclidean norm of dst (modelled by its square); in particular,
when u vanishes on the logical source range, the returned scalar is exactly
the norm of b. -/
theorem claim_C4_residual_is_b_minus_Au (A : ChunkSparseMatrix)
    (idp : Nat × ChunkPattern) (u b : Nat → ℤ) (hA : A.cols = some idp)
    (ha : A.alloc = true) (hv : idp.2.Valid)
    (hpz : PaddingZero idp.2 A.val) :
    ∃ dn : (Nat → ℤ) × ℤ, A.residual u b = some dn ∧
      (∀ i, i < idp.2.m →
        dn.1 i = b i -
          ∑ j ∈ Finset.range idp.2.n, entry idp.2 A.val i j * u j) ∧
      (∀ i, idp.2.m ≤ i → dn.1 i = b i) ∧
      dn.2 = l2NormSq idp.2.m dn.1 ∧
      ((∀ j, j < idp.2.n → u j = 0) → dn.2 = l2NormSq idp.2.m b) := by
  have hres : A.residual u b =
      some ((residualTraverse idp.2 A.val u b).dst,
        l2NormSq idp.2.m (residualTraverse idp.2 A.val u b).dst) := by
    simp [ChunkSparseMatrix.residual, hA, ha]
  have hchar : ∀ i, i < idp.2.m → (residualTraverse idp.2 A.val u b).dst i =
      b i - ∑ j ∈ Finset.range idp.2.n, entry idp.2 A.val i j * u j := by
    intro i hi
    rw [residual_traverse_dst idp.2 hv A.val u b i, if_pos hi]
    rw [Finset.sum_neg_distrib, ← sub_eq_add_neg]
    congr 1
    rw [← row_sum_eq_logical idp.2 hv hpz u hi]
    apply Finset.sum_congr rfl
    intro k hk
    have hknnz : k < idp.2.nnz :=
      slot_lt_nnz hv (div_lt_nCR hv.cs_pos hi) (Finset.mem_Ico.mp hk).2
    rw [contribRes_eq_contrib idp.2 hv A.val u hknnz]
    exact contrib_eq_full idp.2 hv hpz u hknnz (Nat.mod_lt i hv.cs_pos)
  refine ⟨((residualTraverse idp.2 A.val u b).dst,
    l2NormSq idp.2.m (residualTraverse idp.2 A.val u b).dst),
    hres, hchar, ?_, rfl, ?_⟩
  · intro i hi
    show (residualTraverse idp.2 A.val u b).dst i = b i
    rw [residual_traverse_dst idp.2 hv A.val u b i, if_neg (by omega)]
  · intro hu
    show l2NormSq idp.2.m (residualTraverse idp.2 A.val u b).dst =
      l2NormSq idp.2.m b
    unfold l2NormSq
    apply Finset.sum_congr rfl
    intro i hi
    have hieq : (residualTraverse idp.2 A.val u b).dst i = b i := by
      rw [hchar i (Finset.mem_range.mp hi)]
      have hz : ∑ j ∈ Finset.range idp.2.n, entry idp.2 A.val i j * u j = 0 := by
        apply Finset.sum_eq_zero
        intro j hj
        rw [hu j (Finset.mem_range.mp hj), mul_zero]
      rw [hz, sub_zero]
    rw [hieq]

/-- C4 witness: the concrete scenario matrix with u = 0 and b = [4,5,6]:
the residual vector equals b and the returned squared norm is 77. -/
theorem claim_C4_residual_is_b_minus_Au_witness :
    (mat33.cols = some (0, pat33) ∧ mat33.alloc = true ∧
      pat33.Valid ∧ PaddingZero pat33 mat33.val) ∧
    ((mat33.residual (vecOf []) (vecOf [4, 5, 6])).map
      (fun dn => (dn.1 0, dn.1 1, dn.1 2, dn.2)) = some (4, 5, 6, 77)) ∧
    (∃ dn : (Nat → ℤ) × ℤ, mat33.residual (vecOf []) (vecOf [4, 5, 6]) = some dn ∧
      (∀ i, i < pat33.m →
        dn.1 i = vecOf [4, 5, 6] i -
          ∑ j ∈ Finset.range pat33.n, entry pat33 mat33.val i j * vecOf [] j) ∧
      (∀ i, pat33.m ≤ i → dn.1 i = vecOf [4, 5, 6] i) ∧
      dn.2 = l2NormSq pat33.m dn.1 ∧
      ((∀ j, j < pat33.n → vecOf [] j = 0) →
        dn.2 = l2NormSq pat33.m (vecOf [4, 5, 6]))) :=
  ⟨⟨rfl, rfl, by decide, by decide⟩, by decide,
    claim_C4_residual_is_b_minus_Au mat33 (0, pat33) (vecOf []) (vecOf [4, 5, 6])
      rfl rfl (by decide) (by decide)⟩

/-! Frobenius norm as the sum over stored logical entries. -/

theorem find_interval {p : ChunkPattern} (hv : p.Valid) {k : Nat} :
    ∀ N, k < p.rs N → N ≤ p.nChunkRows →
    ∃ R, R < N ∧ p.rs R ≤ k ∧ k < p.rs (R + 1) := by
  intro N
  induction N with
  | zero =>
    intro h1 _
    rw [hv.rs_zero] at h1
    omega
  | succ N ih =>
    intro h1 h2
    by_cases hk : k < p.rs N
    · obtain ⟨R, hR1, hR2, hR3⟩ := ih hk (by omega)
      exact ⟨R, by omega, hR2, hR3⟩
    · exact ⟨N, by omega, by omega, h1⟩

theorem rowOfSlot_spec {p : ChunkPattern} (hv : p.Valid) {k : Nat}
    (hk : k < p.nnz) :
    p.rowOfSlot k < p.nChunkRows ∧ p.rs (p.rowOfSlot k) ≤ k ∧
      k < p.rs (p.rowOfSlot k + 1) := by
  obtain ⟨R, hR1, hR2, hR3⟩ :=
    find_interval hv p.nChunkRows (by rw [hv.rs_top]; exact hk) (Nat.le_refl _)
  rw [rowOfSlot_eq hv hR1 hR2 hR3]
  exact ⟨hR1, hR2, hR3⟩

/-- C5: when the chunk size divides both logical dimensions (no chunk
padding) and the buffer length is exactly the required length for the bound
pattern (a freshly bound matrix), the square of the frobenius norm — the
accumulator the source takes the square root of — equals the sum over all
stored logical entries of the squared entry value. -/
theorem claim_C5_frobenius_eq_sum_stored (A : ChunkSparseMatrix)
    (idp : Nat × ChunkPattern) (hA : A.cols = some idp) (hv : idp.2.Valid)
    (hm : idp.2.cs ∣ idp.2.m) (hn : idp.2.cs ∣ idp.2.n)
    (hlen : A.maxLen = idp.2.nnz * (idp.2.cs * idp.2.cs)) :
    A.frobenius_norm_sqr =
      ∑ ij ∈ storedEntries idp.2,
        entry idp.2 A.val ij.1 ij.2 * entry idp.2 A.val ij.1 ij.2 := by
  obtain ⟨tag, p⟩ := idp
  simp only [] at hv hm hn hlen
  show A.frobenius_norm_sqr = ∑ ij ∈ storedEntries p,
    entry p A.val ij.1 ij.2 * entry p A.val ij.1 ij.2
  have hcs := hv.cs_pos
  have hmodm : p.m % p.cs = 0 := Nat.mod_eq_zero_of_dvd hm
  have hmodn : p.n % p.cs = 0 := Nat.mod_eq_zero_of_dvd hn
  have hmm : p.nChunkRows * p.cs = p.m := by
    rw [nCR_of_mod_zero hcs hv.m_pos hmodm]
    exact Nat.div_mul_cancel hm
  have hnn : p.nChunkCols * p.cs = p.n := by
    rw [nCC_of_mod_zero hcs hv.n_pos hmodn]
    exact Nat.div_mul_cancel hn
  have hmem : ∀ ij ∈ storedEntries p, ij.1 < p.m ∧ ij.2 < p.n ∧
      ∃ k, p.findSlot (ij.1 / p.cs) (ij.2 / p.cs) = some k := by
    intro ij hij
    obtain ⟨hprod, hsome⟩ := Finset.mem_filter.mp hij
    obtain ⟨h1, h2⟩ := Finset.mem_product.mp hprod
    exact ⟨Finset.mem_range.mp h1, Finset.mem_range.mp h2,
      Option.isSome_iff_exists.mp hsome⟩
  have step1 : A.frobenius_norm_sqr =
      ∑ k ∈ Finset.range p.nnz, ∑ r ∈ Finset.range p.cs,
        ∑ c ∈ Finset.range p.cs,
          A.val (k * (p.cs * p.cs) + r * p.cs + c) *
            A.val (k * (p.cs * p.cs) + r * p.cs + c) := by
    show ∑ t ∈ Finset.range A.maxLen, A.val t * A.val t = _
    rw [hlen, sum_range_mul_split p.nnz (p.cs * p.cs)
      (fun t => A.val t * A.val t)]
    apply Finset.sum_congr rfl
    intro k _
    rw [sum_range_mul_split p.cs p.cs
      (fun o => A.val (k * (p.cs * p.cs) + o) * A.val (k * (p.cs * p.cs) + o))]
    apply Finset.sum_congr rfl
    intro r _
    apply Finset.sum_congr rfl
    intro c _
    rw [← Nat.add_assoc]
  have step2 : ∑ x ∈ Finset.range p.nnz ×ˢ
        (Finset.range p.cs ×ˢ Finset.range p.cs),
        A.val (x.1 * (p.cs * p.cs) + x.2.1 * p.cs + x.2.2) *
          A.val (x.1 * (p.cs * p.cs) + x.2.1 * p.cs + x.2.2) =
      ∑ k ∈ Finset.range p.nnz, ∑ r ∈ Finset.range p.cs,
        ∑ c ∈ Finset.range p.cs,
          A.val (k * (p.cs * p.cs) + r * p.cs + c) *
            A.val (k * (p.cs * p.cs) + r * p.cs + c) := by
    rw [Finset.sum_product]
    apply Finset.sum_congr rfl
    intro k _
    rw [Finset.sum_product]
  have step3 : ∑ ij ∈ storedEntries p,
        entry p A.val ij.1 ij.2 * entry p A.val ij.1 ij.2 =
      ∑ x ∈ Finset.range p.nnz ×ˢ (Finset.range p.cs ×ˢ Finset.range p.cs),
        A.val (x.1 * (p.cs * p.cs) + x.2.1 * p.cs + x.2.2) *
          A.val (x.1 * (p.cs * p.cs) + x.2.1 * p.cs + x.2.2) := by
    refine Finset.sum_nbij'
      (fun ij => ((p.findSlot (ij.1 / p.cs) (ij.2 / p.cs)).getD 0,
        (ij.1 % p.cs, ij.2 % p.cs)))
      (fun x => (p.rowOfSlot x.1 * p.cs + x.2.1, p.cn x.1 * p.cs + x.2.2))
      ?_ ?_ ?_ ?_ ?_
    · intro ij hij
      obtain ⟨hi1, hi2, k, hfs⟩ := hmem ij hij
      have hR : ij.1 / p.cs < p.nChunkRows := div_lt_nCR hcs hi1
      obtain ⟨hs1, hs2, hs3⟩ := findSlot_sound hv hR hfs
      simp only []
      rw [hfs, Option.getD_some]
      refine Finset.mem_product.mpr ⟨?_, Finset.mem_product.mpr ⟨?_, ?_⟩⟩
      · exact Finset.mem_range.mpr (slot_lt_nnz hv hR hs2)
      · exact Finset.mem_range.mpr (Nat.mod_lt _ hcs)
      · exact Finset.mem_range.mpr (Nat.mod_lt _ hcs)
    · intro x hx
      obtain ⟨k, r, c⟩ := x
      obtain ⟨hx1, hx23⟩ := Finset.mem_product.mp hx
      obtain ⟨hx2, hx3⟩ := Finset.mem_product.mp hx23
      simp only [Finset.mem_range] at hx1 hx2 hx3
      obtain ⟨hsp1, hsp2, hsp3⟩ := rowOfSlot_spec hv hx1
      simp only []
      refine Finset.mem_filter.mpr ⟨Finset.mem_product.mpr ⟨?_, ?_⟩, ?_⟩
      · apply Finset.mem_range.mpr
        have h1 : (p.rowOfSlot k + 1) * p.cs = p.rowOfSlot k * p.cs + p.cs := by
          ring
        have h2 : (p.rowOfSlot k + 1) * p.cs ≤ p.nChunkRows * p.cs :=
          mul_le_mul_right' hsp1 p.cs
        show p.rowOfSlot k * p.cs + r < p.m
        omega
      · apply Finset.mem_range.mpr
        have hcn := hv.cn_lt hx1
        have h1 : (p.cn k + 1) * p.cs = p.cn k * p.cs + p.cs := by ring
        have h2 : (p.cn k + 1) * p.cs ≤ p.nChunkCols * p.cs :=
          mul_le_mul_right' hcn p.cs
        show p.cn k * p.cs + c < p.n
        omega
      · show (p.findSlot ((p.rowOfSlot k * p.cs + r) / p.cs)
          ((p.cn k * p.cs + c) / p.cs)).isSome = true
        rw [inner_div hcs hx2, inner_div hcs hx3,
          findSlot_of_slot hv hsp1 hsp2 hsp3]
        rfl
    · intro ij hij
      obtain ⟨hi1, hi2, k, hfs⟩ := hmem ij hij
      have hR : ij.1 / p.cs < p.nChunkRows := div_lt_nCR hcs hi1
      obtain ⟨hs1, hs2, hs3⟩ := findSlot_sound hv hR hfs
      simp only []
      rw [hfs, Option.getD_some]
      have hrow : p.rowOfSlot k = ij.1 / p.cs := rowOfSlot_eq hv hR hs1 hs2
      apply Prod.ext
      · show p.rowOfSlot k * p.cs + ij.1 % p.cs = ij.1
        rw [hrow]
        have hdm := Nat.div_add_mod ij.1 p.cs
        have e : ij.1 / p.cs * p.cs = p.cs * (ij.1 / p.cs) := Nat.mul_comm _ _
        omega
      · show p.cn k * p.cs + ij.2 % p.cs = ij.2
        rw [hs3]
        have hdm := Nat.div_add_mod ij.2 p.cs
        have e : ij.2 / p.cs * p.cs = p.cs * (ij.2 / p.cs) := Nat.mul_comm _ _
        omega
    · intro x hx
      obtain ⟨k, r, c⟩ := x
      obtain ⟨hx1, hx23⟩ := Finset.mem_product.mp hx
      obtain ⟨hx2, hx3⟩ := Finset.mem_product.mp hx23
      simp only [Finset.mem_range] at hx1 hx2 hx3
      obtain ⟨hsp1, hsp2, hsp3⟩ := rowOfSlot_spec hv hx1
      simp only []
      show ((p.findSlot ((p.rowOfSlot k * p.cs + r) / p.cs)
          ((p.cn k * p.cs + c) / p.cs)).getD 0,
        ((p.rowOfSlot k * p.cs + r) % p.cs, (p.cn k * p.cs + c) % p.cs)) =
        (k, r, c)
      rw [inner_div hcs hx2, inner_div hcs hx3, inner_mod hcs hx2,
        inner_mod hcs hx3, findSlot_of_slot hv hsp1 hsp2 hsp3,
        Option.getD_some]
    · intro ij hij
      obtain ⟨hi1, hi2, k, hfs⟩ := hmem ij hij
      simp only []
      show entry p A.val ij.1 ij.2 * entry p A.val ij.1 ij.2 = _
      unfold entry
      rw [hfs, Option.getD_some]
  rw [step1, step3]
  exact step2.symm

/-- C5 witness: the concrete matrix bound to patBig (chunk size 1 divides
both dimensions, capacity exactly the required length 4) with values
1,2,3,4 satisfies the frobenius/stored-entry identity, and both sides
evaluate to 30. -/
theorem claim_C5_frobenius_eq_sum_stored_witness :
    (patBig.Valid ∧ patBig.cs ∣ patBig.m ∧ patBig.cs ∣ patBig.n ∧
      (4 : Nat) = patBig.nnz * (patBig.cs * patBig.cs)) ∧
    ((⟨some (7, patBig), vecOf [1, 2, 3, 4], true, 4⟩ :
        ChunkSparseMatrix).frobenius_norm_sqr =
      ∑ ij ∈ storedEntries patBig,
        entry patBig (vecOf [1, 2, 3, 4]) ij.1 ij.2 *
          entry patBig (vecOf [1, 2, 3, 4]) ij.1 ij.2) ∧
    (⟨some (7, patBig), vecOf [1, 2, 3, 4], true, 4⟩ :
        ChunkSparseMatrix).frobenius_norm_sqr = 30 :=
  ⟨⟨by decide, by decide, by decide, by decide⟩,
    claim_C5_frobenius_eq_sum_stored
      ⟨some (7, patBig), vecOf [1, 2, 3, 4], true, 4⟩ (7, patBig) rfl
      (by decide) (by decide) (by decide) (by decide),
    by decide⟩
